import Mathlib

/-!
Verification of the PRS codec (SEGA's LZ77-family byte-stream format).

This development shallowly embeds the Rust sources:
- `src/flavor.rs` / `src/variant.rs` : the two dialects (`Legacy`, `Modern`)
  and their constants;
- `src/decompress.rs` : the one-shot decoder `decompress_buf` with its bit
  reader `Ctx::read_bit` and command dispatcher `Ctx::next_cmd`;
- `src/compress.rs` : the bit-interleaved sink `PrsSink`
  (`write_bit`, `consume`, `finish`) and the streaming encoder `PrsEncoder`
  (`write` / `flush_buf` / `into_inner`), with the downstream writer
  modelled as an ideal byte accumulator.

Machine integers are modelled as `Nat` (unsigned; bytes are kept `< 256` by
reducing mod 256 at the read/write boundaries, exactly where Rust's `u8`
type enforces the range) and `Int` (signed `i16`/`i32` values).  Two's
complement bitwise operations of the source that mix signs are modelled by
their exact arithmetic characterizations, documented at each definition.

The external LZ77 match-finder (crate `libflate_lz77`, out of scope for the
repository) is abstracted by the token streams it may emit; its contract is
captured by `validCodes`.
-/

namespace Prs

/-- PRS dialect (source: `flavor.rs` / `variant.rs`, `Legacy` / `Modern`). -/
inductive Flavor
  | legacy
  | modern
deriving DecidableEq

/-- `MIN_LONG_COPY_LENGTH`: 1 for Legacy, 10 for Modern. -/
def Flavor.minLongCopyLength : Flavor → Nat
  | .legacy => 1
  | .modern => 10

/-- `MAX_COPY_LENGTH = u8::MAX + MIN_LONG_COPY_LENGTH`. -/
def Flavor.maxCopyLength (f : Flavor) : Nat :=
  255 + f.minLongCopyLength

/-! ## Decoder (`src/decompress.rs`) -/

/-- Errors of `decompress` (source: `DecompressError`). -/
inductive DecompressError
  | eof
  | invalidPointer (dist len currentLen : Nat)
deriving DecidableEq

deriving instance DecidableEq for Except

/-- Decoder cursor state (source: `Ctx`): position of the `Cursor` into the
input buffer, the current command byte with consumed bits shifted out
(`cmds`), and the number of bits remaining in it (`rem`). -/
structure Ctx where
  pos : Nat
  cmds : Nat
  rem : Nat
deriving DecidableEq

/-- LZ77 commands produced by the decoder (source: `Cmd`); the first field
of `pointer` is the backward distance, the second the copy length. -/
inductive Cmd
  | literal (b : Nat)
  | pointer (dist len : Nat)
deriving DecidableEq

/-- `Ctx::read_bit`: refill `cmds` from the input when `rem == 0`, then
return the least significant bit and shift.  A failed refill is `Eof`. -/
def readBit (buf : List Nat) (c : Ctx) : Except DecompressError (Bool × Ctx) :=
  if c.rem = 0 then
    if c.pos < buf.length then
      let byte := buf.getD c.pos 0 % 256
      .ok (byte % 2 = 1, ⟨c.pos + 1, byte / 2, 7⟩)
    else
      .error .eof
  else
    .ok (c.cmds % 2 = 1, ⟨c.pos, c.cmds / 2, c.rem - 1⟩)

/-- A single-byte `read_exact` on the cursor (payload byte reads). -/
def readByte (buf : List Nat) (c : Ctx) : Except DecompressError (Nat × Ctx) :=
  if c.pos < buf.length then
    .ok (buf.getD c.pos 0 % 256, ⟨c.pos + 1, c.cmds, c.rem⟩)
  else
    .error .eof

/-- `i16::from_le_bytes` of a 16-bit value `v < 65536`: two's complement
interpretation as a signed integer. -/
def i16OfRaw (v : Nat) : Int :=
  if v < 32768 then (v : Int) else (v : Int) - 65536

/-- `offset | -8192i32` in two's complement: `-8192` has all bits set except
the low 13; the OR therefore keeps the low 13 bits of `offset` and forces
every higher bit (including the sign), which is the value
`offset mod 2^13 - 2^13`. -/
def orNeg8192 (offset : Int) : Int :=
  offset % 8192 - 8192

/-- `offset | -256i32` in two's complement: keeps the low 8 bits of
`offset` and forces every higher bit, giving `offset mod 2^8 - 2^8`. -/
def orNeg256 (offset : Int) : Int :=
  offset % 256 - 256

/-- `Ctx::next_cmd`: dispatch the next command.  `none` is the EOF sentinel
(long-pointer prefix with zero 16-bit offset).

Two's complement operations of the source on the `i32` value `offset`:
`offset & 0b111` is the low 3 bits, i.e. `offset mod 8` (`Int % 8`);
`offset >>= 3` is an arithmetic shift, i.e. flooring division by 8, which
for the positive divisor 8 is `Int / 8`; `offset |= -8192` is
`orNeg8192`; `(-offset) as usize` of the resulting negative `offset` is
`(-offset).toNat`. -/
def nextCmd (buf : List Nat) (F : Flavor) (c : Ctx) :
    Except DecompressError (Ctx × Option Cmd) :=
  match readBit buf c with
  | .error e => .error e
  | .ok (true, c) =>
    -- literal
    match readByte buf c with
    | .error e => .error e
    | .ok (b, c) => .ok (c, some (.literal b))
  | .ok (false, c) =>
    match readBit buf c with
    | .error e => .error e
    | .ok (true, c) =>
      -- long ptr
      match readByte buf c with
      | .error e => .error e
      | .ok (lo, c) =>
        match readByte buf c with
        | .error e => .error e
        | .ok (hi, c) =>
          let raw := lo + 256 * hi
          if raw = 0 then
            .ok (c, none)
          else
            let offset := i16OfRaw raw
            let size0 := (offset % 8).toNat
            let offset := offset / 8
            if size0 = 0 then
              -- next byte is the real size
              match readByte buf c with
              | .error e => .error e
              | .ok (ext, c) =>
                let size := ext + F.minLongCopyLength
                let offset := orNeg8192 offset
                .ok (c, some (.pointer (-offset).toNat size))
            else
              let size := size0 + 2
              let offset := orNeg8192 offset
              .ok (c, some (.pointer (-offset).toNat size))
    | .ok (false, c) =>
      -- short ptr
      match readBit buf c with
      | .error e => .error e
      | .ok (flagBit, c) =>
        match readBit buf c with
        | .error e => .error e
        | .ok (bitBit, c) =>
          let flag : Nat := if flagBit then 1 else 0
          let bit : Nat := if bitBit then 1 else 0
          let size := (bit + 2 * flag) + 2
          match readByte buf c with
          | .error e => .error e
          | .ok (b, c) =>
            let offset := orNeg256 (b : Int)
            .ok (c, some (.pointer (-offset).toNat size))

/-- The pointer-application loop of `decompress_buf`: copy `n` more bytes,
each read `dist` back from the current end of `out`.  `fullLen` is the
pointer's total length, recorded in the error as the source does. -/
def copyLoop (dist fullLen : Nat) : Nat → List Nat → Except DecompressError (List Nat)
  | 0, out => .ok out
  | n + 1, out =>
    if dist = 0 ∨ out.length < dist then
      .error (.invalidPointer dist fullLen out.length)
    else
      copyLoop dist fullLen n (out ++ [out.getD (out.length - dist) 0])

/-- The main loop of `decompress_buf`, with explicit fuel.  Each successful
non-EOF command strictly advances the cursor, so `buf.length + 1` units of
fuel always suffice (`decodeLoop_isSome` below); `none` marks exhausted
fuel and is unreachable from `decompressBuf`. -/
def decodeLoop (buf : List Nat) (F : Flavor) :
    Nat → Ctx → List Nat → Option (Except DecompressError (List Nat))
  | 0, _, _ => none
  | fuel + 1, c, out =>
    match nextCmd buf F c with
    | .error e => some (.error e)
    | .ok (_, none) => some (.ok out)
    | .ok (c, some (.literal b)) => decodeLoop buf F fuel c (out ++ [b])
    | .ok (c, some (.pointer dist len)) =>
      match copyLoop dist len len out with
      | .error e => some (.error e)
      | .ok out => decodeLoop buf F fuel c out

/-- `decompress_buf`: empty input yields the empty buffer; otherwise run the
decode loop from a fresh cursor. -/
def decompressBuf (F : Flavor) (buf : List Nat) : Except DecompressError (List Nat) :=
  if buf.isEmpty then
    .ok []
  else
    match decodeLoop buf F (buf.length + 1) ⟨0, 0, 0⟩ [] with
    | some r => r
    | none => .error .eof

/-- `decompress_legacy`. -/
def decompressLegacy (buf : List Nat) : Except DecompressError (List Nat) :=
  decompressBuf .legacy buf

/-- `decompress_modern`. -/
def decompressModern (buf : List Nat) : Except DecompressError (List Nat) :=
  decompressBuf .modern buf

/-! ## Encoder sink (`src/compress.rs`, `PrsSink`) -/

/-- LZ77 tokens fed to the sink (crate `libflate_lz77`, `Code`):
a literal byte or a back-reference `{ length, backward_distance }`. -/
inductive Code
  | literal (b : Nat)
  | pointer (length backwardDistance : Nat)
deriving DecidableEq

/-- Sink state (source: `PrsSink`): the output buffer, the index of the
in-flight command byte and how many of its bits are still free. -/
structure PrsSink where
  cmdIndex : Nat
  cmdBitsRem : Nat
  out : List Nat
deriving DecidableEq

/-- `PrsSink::new`: empty buffer, no in-flight command byte. -/
def PrsSink.init : PrsSink := ⟨0, 0, []⟩

/-- `PrsSink::write_bit`: allocate a fresh zero command byte at the tail
when no bits remain, then OR the bit at position `8 - cmd_bits_rem` and
decrement `cmd_bits_rem`. -/
def PrsSink.writeBit (s : PrsSink) (bit : Bool) : PrsSink :=
  let s :=
    if s.cmdBitsRem = 0 then
      { s with cmdIndex := s.out.length, cmdBitsRem := 8, out := s.out ++ [0] }
    else s
  let s :=
    if bit then
      { s with
        out := s.out.set s.cmdIndex (s.out.getD s.cmdIndex 0 ||| 1 <<< (8 - s.cmdBitsRem)) }
    else s
  { s with cmdBitsRem := s.cmdBitsRem - 1 }

/-- `out.push(b)` for a payload byte. -/
def PrsSink.push (s : PrsSink) (b : Nat) : PrsSink :=
  { s with out := s.out ++ [b] }

/-- `PrsSink::consume` (the `Sink` impl).  `none` models the source's
panics on contract violation (`length < 2`, `length > MAX_COPY_LENGTH`,
`backward_distance >= 8192`).

Two's complement operations of the source: for the long pointer,
`offset = -(backward_distance) << 3` is the `i32` value `-(8·d)`, whose low
3 bits are zero, so `offset |= length - 2` (with `length - 2 < 8`) adds
`length - 2`; `(offset as u16)` truncates to the low 16 bits, i.e.
`Int % 65536`; its little-endian bytes are `v % 256, v / 256`.  For the
short pointer, `(-offset & 0xFF) as u8` is `(-(d : Int)) % 256`.
Literal bytes and the extended-length byte `(length - MIN) as u8` are
reduced mod 256 at the `u8` boundary. -/
def PrsSink.consume (V : Flavor) (s : PrsSink) (code : Code) : Option PrsSink :=
  match code with
  | .literal b =>
    some ((s.writeBit true).push (b % 256))
  | .pointer length backwardDistance =>
    if length < 2 then
      none
    else if V.maxCopyLength < length then
      none
    else if 8192 ≤ backwardDistance then
      none
    else if 256 ≤ backwardDistance ∨ 5 < length then
      -- long ptr
      let s := s.writeBit false
      let s := s.writeBit true
      let offset : Int := -(backwardDistance : Int) * 8
      let offset : Int := if length - 2 < 8 then offset + ((length - 2 : Nat) : Int) else offset
      let v : Nat := (offset % 65536).toNat
      let s := (s.push (v % 256)).push (v / 256)
      if 8 ≤ length - 2 then
        some (s.push ((length - V.minLongCopyLength) % 256))
      else
        some s
    else
      -- short ptr
      let s := s.writeBit false
      let s := s.writeBit false
      let size := length - 2
      let s := s.writeBit ((size &&& 2) ≠ 0)
      let s := s.writeBit ((size &&& 1) ≠ 0)
      some (s.push ((-(backwardDistance : Int)) % 256).toNat)

/-- `PrsSink::finish`: emit the EOF sentinel (bits `0`, `1`, then the two
zero offset bytes) and return the whole buffer. -/
def PrsSink.finish (s : PrsSink) : List Nat :=
  (((s.writeBit false).writeBit true).push 0).push 0 |>.out

/-- Feed a list of tokens to the sink (`none` on any contract violation). -/
def consumeAll (V : Flavor) : PrsSink → List Code → Option PrsSink
  | s, [] => some s
  | s, c :: ts =>
    match PrsSink.consume V s c with
    | none => none
    | some s => consumeAll V s ts

/-- One-shot compression of a token stream: run the sink over every token
and finalize.  This is the byte stream a `PrsEncoder` delivers downstream
when the match-finder emits exactly these tokens. -/
def compressTokens (V : Flavor) (ts : List Code) : Option (List Nat) :=
  (consumeAll V .init ts).map PrsSink.finish

/-! ## Streaming encoder (`src/compress.rs`, `PrsEncoder`)

The downstream `Write` sink is modelled as an ideal accumulator that
accepts every byte (no short writes, no I/O errors); `written` is what it
has received. -/

/-- `PrsEncoder` state: the sink plus the bytes already delivered to the
downstream writer. -/
structure EncSt where
  sink : PrsSink
  written : List Nat
deriving DecidableEq

/-- A fresh encoder over a fresh downstream writer. -/
def EncSt.init : EncSt := ⟨.init, []⟩

/-- `PrsEncoder::flush_buf`: everything strictly before `cmd_index` is safe
to write.  If `cmd_index == 0` flush nothing; otherwise deliver
`out[0 .. cmd_index]`, drain it, and subtract the drained count from
`cmd_index`. -/
def flushBuf (e : EncSt) : EncSt :=
  let hw := e.sink.cmdIndex
  if hw = 0 then
    e
  else
    { sink := { e.sink with cmdIndex := 0, out := e.sink.out.drop hw },
      written := e.written ++ e.sink.out.take hw }

/-- `PrsEncoder::write` of one chunk: the match-finder consumes the chunk
and emits `ts` to the sink, then the encoder flushes.  `none` models a
sink panic. -/
def encWrite (V : Flavor) (e : EncSt) (ts : List Code) : Option EncSt :=
  (consumeAll V e.sink ts).map fun s => flushBuf { e with sink := s }

/-- A sequence of `write` calls, one token list per chunk. -/
def encWrites (V : Flavor) : EncSt → List (List Code) → Option EncSt
  | e, [] => some e
  | e, ts :: rest =>
    match encWrite V e ts with
    | none => none
    | some e => encWrites V e rest

/-- `PrsEncoder::into_inner`: flush, let the match-finder flush its
buffered tokens `fin` into the sink, finalize the sink and deliver the
entire remaining buffer.  Returns all bytes the downstream writer has
received. -/
def encFinish (V : Flavor) (e : EncSt) (fin : List Code) : Option (List Nat) :=
  let e := flushBuf e
  (consumeAll V e.sink fin).map fun s => e.written ++ s.finish

/-- A whole encoder run: a `write` call per chunk, then `into_inner`
(with `fin` the tokens the match-finder emits on its final flush). -/
def encRun (V : Flavor) (chunks : List (List Code)) (fin : List Code) : Option (List Nat) :=
  match encWrites V .init chunks with
  | none => none
  | some e => encFinish V e fin

/-! ## The match-finder contract and reference LZ77 semantics

The LZ77 match-finder is the crate `libflate_lz77`, external to the
repository and out of its scope.  `specValidCode` is the contract the spec
states for the token stream it emits (window 8191, dialect-bounded
lengths, pointers into already-produced output).  That contract is NOT
sufficient for the roundtrip: a length-2 long pointer is encoded with zero
size bits, so the decoder reads the following stream byte as an
extended-length byte and desynchronizes — the C1 counterexample exhibits a
spec-contract-valid stream whose roundtrip fails.  `validCode` is the
amended contract, strengthened by `256 ≤ dist → 3 ≤ len`; the DEFLATE-style
match-finder never emits matches shorter than 3 and satisfies it. -/

/-- Modelled from the spec: the match-finder contract in the spec's own
words (token model and encoder preconditions) for one token emitted when
`pos` output bytes exist: a literal carries a byte; a pointer has
`2 ≤ length ≤ MAX_COPY_LENGTH` and `1 ≤ backward_distance ≤ 8191` and
reaches only into already-produced output.  The spec fixes nothing more
about which matches are chosen. -/
def specValidCode (V : Flavor) (pos : Nat) : Code → Prop
  | .literal b => b < 256
  | .pointer len dist =>
    2 ≤ len ∧ len ≤ V.maxCopyLength ∧ 1 ≤ dist ∧ dist ≤ 8191 ∧ dist ≤ pos

/-- The amended contract: `specValidCode` strengthened by
`256 ≤ dist → 3 ≤ len`.  The strengthening is not in the spec's words but
is load-bearing for the roundtrip (see the C1 counterexample below); the
DEFLATE-style match-finder the encoder wraps guarantees it. -/
def validCode (V : Flavor) (pos : Nat) : Code → Prop
  | .literal b => b < 256
  | .pointer len dist =>
    2 ≤ len ∧ len ≤ V.maxCopyLength ∧ 1 ≤ dist ∧ dist ≤ 8191 ∧ dist ≤ pos ∧
      (256 ≤ dist → 3 ≤ len)

/-- Number of output bytes a token reconstructs. -/
def codeOutLen : Code → Nat
  | .literal _ => 1
  | .pointer len _ => len

/-- Modelled from the spec: the spec's contract over a whole token stream
starting at output position `pos`. -/
def specValidCodes (V : Flavor) : Nat → List Code → Prop
  | _, [] => True
  | pos, c :: ts => specValidCode V pos c ∧ specValidCodes V (pos + codeOutLen c) ts

/-- The amended contract over a whole token stream starting at output
position `pos`. -/
def validCodes (V : Flavor) : Nat → List Code → Prop
  | _, [] => True
  | pos, c :: ts => validCode V pos c ∧ validCodes V (pos + codeOutLen c) ts

/-- Reference LZ77 copy: append `n` bytes, each read `dist` back from the
current end (total version of `copyLoop`). -/
def lzCopy (dist : Nat) : Nat → List Nat → List Nat
  | 0, w => w
  | n + 1, w => lzCopy dist n (w ++ [w.getD (w.length - dist) 0])

/-- Reference semantics of one token on the output window. -/
def applyCode (w : List Nat) : Code → List Nat
  | .literal b => w ++ [b]
  | .pointer len dist => lzCopy dist len w

/-- Reference semantics of a token stream: the raw bytes it reconstructs. -/
def codesOutput : List Nat → List Code → List Nat
  | w, [] => w
  | w, c :: ts => codesOutput (applyCode w c) ts

/-! ## Basic well-formedness -/

/-- Every element is a byte value. -/
def Bytes (l : List Nat) : Prop := ∀ b ∈ l, b < 256

/-- Sink well-formedness, the invariant of §4.2 of the spec: `cmd_bits_rem`
is at most 8; `cmd_index` never points past the buffer; while a command
byte is in flight (`cmd_bits_rem > 0`) it is a valid index and the byte at
it has its `cmd_bits_rem` not-yet-assigned high bit positions zero (its
value is below `2 ^ (8 - cmd_bits_rem)`, bits being filled LSB-first); and
the buffer holds bytes. -/
def SinkWf (s : PrsSink) : Prop :=
  s.cmdBitsRem ≤ 8 ∧
  s.cmdIndex ≤ s.out.length ∧
  (0 < s.cmdBitsRem →
    s.cmdIndex < s.out.length ∧ s.out.getD s.cmdIndex 0 < 2 ^ (8 - s.cmdBitsRem)) ∧
  Bytes s.out

instance (l : List Nat) : Decidable (Bytes l) := by
  unfold Bytes; infer_instance

instance (s : PrsSink) : Decidable (SinkWf s) := by
  unfold SinkWf; infer_instance

instance (V : Flavor) (pos : Nat) (c : Code) : Decidable (validCode V pos c) := by
  cases c <;> (unfold validCode; infer_instance)

/-- Decidability of the token-stream contract. -/
def validCodesDec (V : Flavor) : (pos : Nat) → (ts : List Code) → Decidable (validCodes V pos ts)
  | _, [] => .isTrue trivial
  | pos, c :: ts => by
      unfold validCodes
      exact @instDecidableAnd _ _ inferInstance (validCodesDec V (pos + codeOutLen c) ts)

instance (V : Flavor) (pos : Nat) (ts : List Code) : Decidable (validCodes V pos ts) :=
  validCodesDec V pos ts

instance (V : Flavor) (pos : Nat) (c : Code) : Decidable (specValidCode V pos c) := by
  cases c <;> (unfold specValidCode; infer_instance)

/-- Decidability of the spec's token-stream contract. -/
def specValidCodesDec (V : Flavor) :
    (pos : Nat) → (ts : List Code) → Decidable (specValidCodes V pos ts)
  | _, [] => .isTrue trivial
  | pos, c :: ts => by
      unfold specValidCodes
      exact @instDecidableAnd _ _ inferInstance (specValidCodesDec V (pos + codeOutLen c) ts)

instance (V : Flavor) (pos : Nat) (ts : List Code) : Decidable (specValidCodes V pos ts) :=
  specValidCodesDec V pos ts

/-- The amended contract strengthens the spec's contract tokenwise. -/
theorem validCode_imp_specValidCode {V : Flavor} {pos : Nat} {c : Code}
    (h : validCode V pos c) : specValidCode V pos c := by
  cases c with
  | literal b => exact h
  | pointer len dist =>
    obtain ⟨h1, h2, h3, h4, h5, _⟩ := h
    exact ⟨h1, h2, h3, h4, h5⟩

/-- The amended contract strengthens the spec's contract streamwise. -/
theorem validCodes_imp_specValidCodes {V : Flavor} : ∀ {pos : Nat} {ts : List Code},
    validCodes V pos ts → specValidCodes V pos ts
  | _, [], _ => trivial
  | _, _ :: _, h => ⟨validCode_imp_specValidCode h.1, validCodes_imp_specValidCodes h.2⟩

/-! ## List and arithmetic helpers -/

theorem bytes_getD {l : List Nat} (h : Bytes l) (p : Nat) : l.getD p 0 < 256 := by
  rcases Nat.lt_or_ge p l.length with hp | hp
  · have hm : l.getD p 0 ∈ l := by
      rw [List.getD_eq_getElem l 0 hp]
      exact List.getElem_mem hp
    exact h _ hm
  · rw [List.getD_eq_default l 0 hp]; omega

theorem getD_set_self {l : List Nat} {i : Nat} (v : Nat) (h : i < l.length) :
    (l.set i v).getD i 0 = v := by
  simp [List.getElem?_set_self h]

theorem getD_set_ne {l : List Nat} {i j : Nat} (v : Nat) (h : i ≠ j) :
    (l.set i v).getD j 0 = l.getD j 0 := by
  simp [List.getElem?_set_ne h]

theorem getD_append_left {l l' : List Nat} {i : Nat} (h : i < l.length) :
    (l ++ l').getD i 0 = l.getD i 0 :=
  List.getD_append l l' 0 i h

theorem getD_append_len {l : List Nat} (v : Nat) (l' : List Nat) :
    (l ++ v :: l').getD l.length 0 = v := by
  rw [List.getD_append_right _ _ _ _ (Nat.le_refl _), Nat.sub_self]
  rfl

/-- In two's complement, OR-ing a power of two into a number below it adds
it: the bit being set is not yet set. -/
theorem lor_two_pow_of_lt {x k : Nat} (h : x < 2 ^ k) : x ||| 2 ^ k = x + 2 ^ k := by
  apply Nat.eq_of_testBit_eq
  intro i
  rcases Nat.lt_trichotomy i k with hik | rfl | hik
  · rw [Nat.testBit_lor, Nat.add_comm, Nat.testBit_two_pow_add_gt hik,
      Nat.testBit_two_pow]
    simp [show k ≠ i by omega]
  · rw [Nat.testBit_lor, Nat.add_comm, Nat.testBit_two_pow_add_eq,
      Nat.testBit_lt_two_pow h, Nat.testBit_two_pow]
    simp
  · have h1 : x.testBit i = false :=
      Nat.testBit_lt_two_pow (Nat.lt_of_lt_of_le h (Nat.pow_le_pow_right (by omega) (by omega)))
    have h2 : (2 ^ k).testBit i = false := by
      rw [Nat.testBit_two_pow]; simp; omega
    have h3 : (x + 2 ^ k).testBit i = false := by
      apply Nat.testBit_lt_two_pow
      have : 2 ^ k + 2 ^ k ≤ 2 ^ i := by
        calc 2 ^ k + 2 ^ k = 2 ^ (k + 1) := by ring
        _ ≤ 2 ^ i := Nat.pow_le_pow_right (by omega) (by omega)
      omega
    rw [Nat.testBit_lor, h1, h2, h3]
    rfl

/-- Extracting one bit and the rest of a value from its residue modulo
`2 * P`: if `F % (2 * P) = a + b * P` with `a < P` and `b` a bit, then the
digit of `F` at `P` is `b`, the lower digits are `a`, and the upper part is
`F / (2 * P)`. -/
theorem bit_extract {F P a b : Nat} (hP : 0 < P) (ha : a < P) (hb : b ≤ 1)
    (hF : F % (2 * P) = a + b * P) :
    F / P % 2 = b ∧ F / P / 2 = F / (2 * P) ∧ F % P = a := by
  have h2P : 0 < 2 * P := by omega
  have h0 : F = 2 * P * (F / (2 * P)) + (a + b * P) := by
    conv_lhs => rw [← Nat.div_add_mod F (2 * P)]
    rw [hF]
  have h1 : F = a + (b + 2 * (F / (2 * P))) * P := by
    conv_lhs => rw [h0]
    ring
  have h2 : F / P = b + 2 * (F / (2 * P)) := by
    conv_lhs => rw [h1]
    rw [Nat.add_mul_div_right _ _ hP, Nat.div_eq_of_lt ha, Nat.zero_add]
  refine ⟨?_, ?_, ?_⟩
  · rw [h2]; omega
  · rw [h2]; omega
  · conv_lhs => rw [h1]
    rw [Nat.add_mul_mod_self_right, Nat.mod_eq_of_lt ha]

/-! ## Characterizing `write_bit` -/

/-- `write_bit` when no bits remain: allocate a fresh command byte at the
tail holding just the written bit (at position 0), leaving 7 free bits. -/
theorem writeBit_eq_zero (s : PrsSink) (b : Bool) (h : s.cmdBitsRem = 0) :
    s.writeBit b = ⟨s.out.length, 7, s.out ++ [if b then 1 else 0]⟩ := by
  unfold PrsSink.writeBit
  rw [if_pos h]
  cases b
  · simp
  · simp only [if_pos rfl]
    have hset : (s.out ++ [0]).set s.out.length ((s.out ++ [0]).getD s.out.length 0 ||| 1 <<< (8 - 8)) =
        s.out ++ [1] := by
      rw [getD_append_len, List.set_append_right _ _ (Nat.le_refl _), Nat.sub_self]
      rfl
    simp [hset]

/-- `write_bit` when bits remain: OR the bit into the in-flight command
byte at position `8 - cmd_bits_rem` (which, the byte being below
`2 ^ (8 - cmd_bits_rem)`, adds `2 ^ (8 - cmd_bits_rem)`). -/
theorem writeBit_eq_pos (s : PrsSink) (b : Bool) (h : 0 < s.cmdBitsRem)
    (hbyte : s.out.getD s.cmdIndex 0 < 2 ^ (8 - s.cmdBitsRem)) :
    s.writeBit b = ⟨s.cmdIndex, s.cmdBitsRem - 1,
      if b then s.out.set s.cmdIndex (s.out.getD s.cmdIndex 0 + 2 ^ (8 - s.cmdBitsRem))
      else s.out⟩ := by
  unfold PrsSink.writeBit
  rw [if_neg (by omega)]
  cases b
  · simp
  · simp only [if_pos rfl]
    rw [Nat.one_shiftLeft, lor_two_pow_of_lt hbyte]
    simp

theorem sinkWf_init : SinkWf PrsSink.init := by
  refine ⟨by decide, by decide, by simp [PrsSink.init], ?_⟩
  intro b hb
  simp [PrsSink.init] at hb

theorem bytes_append {l l' : List Nat} (h : Bytes l) (h' : Bytes l') : Bytes (l ++ l') := by
  intro b hb
  rcases List.mem_append.mp hb with hb | hb
  · exact h _ hb
  · exact h' _ hb

theorem sinkWf_writeBit {s : PrsSink} (h : SinkWf s) (b : Bool) : SinkWf (s.writeBit b) := by
  obtain ⟨h8, hle, hin, hby⟩ := h
  rcases Nat.eq_zero_or_pos s.cmdBitsRem with h0 | hpos
  · rw [writeBit_eq_zero s b h0]
    unfold SinkWf
    dsimp only
    refine ⟨by omega, by simp, ?_, ?_⟩
    · intro
      refine ⟨by simp, ?_⟩
      rw [getD_append_len]
      cases b <;> simp
    · refine bytes_append hby ?_
      intro x hx
      cases b <;> simp_all
  · have hbyte := (hin hpos).2
    have hci := (hin hpos).1
    rw [writeBit_eq_pos s b hpos hbyte]
    unfold SinkWf
    dsimp only
    have hlt : s.out.getD s.cmdIndex 0 + 2 ^ (8 - s.cmdBitsRem) < 2 ^ (8 - (s.cmdBitsRem - 1)) := by
      have : 8 - (s.cmdBitsRem - 1) = (8 - s.cmdBitsRem) + 1 := by omega
      rw [this, Nat.pow_succ]
      omega
    have hmono : (2 : Nat) ^ (8 - s.cmdBitsRem) ≤ 2 ^ (8 - (s.cmdBitsRem - 1)) :=
      Nat.pow_le_pow_right (by omega) (by omega)
    refine ⟨by omega, ?_, ?_, ?_⟩
    · cases b <;> simp <;> omega
    · intro hpos'
      cases b
      · simp only [if_neg Bool.false_ne_true]
        exact ⟨by omega, by omega⟩
      · rw [if_pos rfl]
        refine ⟨by simpa using hci, ?_⟩
        rw [getD_set_self _ hci]
        exact hlt
    · cases b
      · simpa using hby
      · rw [if_pos rfl]
        intro x hx
        rcases List.mem_or_eq_of_mem_set hx with hx | rfl
        · exact hby _ hx
        · have h256 : 2 ^ (8 - (s.cmdBitsRem - 1)) ≤ 2 ^ 8 :=
            Nat.pow_le_pow_right (by omega) (by omega)
          omega

theorem sinkWf_push {s : PrsSink} (h : SinkWf s) {v : Nat} (hv : v < 256) :
    SinkWf (s.push v) := by
  obtain ⟨h8, hle, hin, hby⟩ := h
  refine ⟨h8, ?_, ?_, ?_⟩
  · simp [PrsSink.push]; omega
  · intro hpos
    obtain ⟨hci, hbyte⟩ := hin hpos
    refine ⟨by simp [PrsSink.push]; omega, ?_⟩
    show (s.out ++ [v]).getD s.cmdIndex 0 < _
    rw [getD_append_left hci]
    exact hbyte
  · refine bytes_append hby ?_
    intro x hx
    simp_all

/-! ## The encoder/decoder simulation relation

`Extends F s` says the final byte stream `F` refines the intermediate sink
state `s`: every settled byte of `s.out` appears unchanged in `F`, and the
in-flight command byte of `s` gives the low bits of the corresponding final
byte (later tokens only OR higher bits into it).  `Sim F s c` says a
decoder cursor `c` reading `F` is exactly in step with the encoder state
`s`: it has consumed every byte `s` has emitted, and of the in-flight
command byte it has consumed exactly the bits the encoder has written. -/

/-- The final stream `F` extends the intermediate sink state `s`. -/
def Extends (F : List Nat) (s : PrsSink) : Prop :=
  s.out.length ≤ F.length ∧
  (∀ p, p < s.out.length → (0 < s.cmdBitsRem → p ≠ s.cmdIndex) →
    F.getD p 0 = s.out.getD p 0) ∧
  (0 < s.cmdBitsRem →
    F.getD s.cmdIndex 0 % 2 ^ (8 - s.cmdBitsRem) = s.out.getD s.cmdIndex 0)

/-- The decoder cursor `c` over the final stream `F` is in step with the
encoder state `s`. -/
def Sim (F : List Nat) (s : PrsSink) (c : Ctx) : Prop :=
  c.pos = s.out.length ∧ c.rem = s.cmdBitsRem ∧
  (0 < s.cmdBitsRem → c.cmds = F.getD s.cmdIndex 0 / 2 ^ (8 - s.cmdBitsRem))

theorem extends_self {s : PrsSink} (h : SinkWf s) (extra : List Nat) :
    Extends (s.out ++ extra) s := by
  obtain ⟨h8, hle, hin, hby⟩ := h
  refine ⟨by simp, ?_, ?_⟩
  · intro p hp _
    exact getD_append_left hp
  · intro hpos
    obtain ⟨hci, hbyte⟩ := hin hpos
    rw [getD_append_left hci, Nat.mod_eq_of_lt hbyte]

theorem extends_push {F : List Nat} {s : PrsSink} {v : Nat} (hwf : SinkWf s)
    (h : Extends F (s.push v)) : Extends F s := by
  obtain ⟨hlen, hagree, hcmd⟩ := h
  dsimp only [PrsSink.push] at hlen hagree hcmd
  refine ⟨?_, ?_, ?_⟩
  · simp at hlen
    omega
  · intro p hp hcav
    have := hagree p (by simp; omega) hcav
    rwa [getD_append_left hp] at this
  · intro hpos
    have hci := (hwf.2.2.1 hpos).1
    have := hcmd hpos
    rwa [getD_append_left hci] at this

/-- The value mod `2^(9 - rem)` of the final byte at the in-flight command
index, after the encoder has written one more bit: the settled low bits
plus the new bit. -/
theorem extends_writeBit_key {F : List Nat} {s : PrsSink} (b : Bool) (hwf : SinkWf s)
    (hpos : 0 < s.cmdBitsRem) (hx : Extends F (s.writeBit b)) :
    F.getD s.cmdIndex 0 % (2 * 2 ^ (8 - s.cmdBitsRem)) =
      s.out.getD s.cmdIndex 0 + (if b then 1 else 0) * 2 ^ (8 - s.cmdBitsRem) := by
  have h8 := hwf.1
  have hci := (hwf.2.2.1 hpos).1
  have hbyte := (hwf.2.2.1 hpos).2
  rw [writeBit_eq_pos s b hpos hbyte] at hx
  obtain ⟨hlen, hagree, hcmd⟩ := hx
  dsimp only at hlen hagree hcmd
  have hpow : (2 : Nat) ^ (8 - (s.cmdBitsRem - 1)) = 2 * 2 ^ (8 - s.cmdBitsRem) := by
    have h9 : 8 - (s.cmdBitsRem - 1) = (8 - s.cmdBitsRem) + 1 := by omega
    rw [h9, Nat.pow_succ]
    ring
  have hset : (if b then
      s.out.set s.cmdIndex (s.out.getD s.cmdIndex 0 + 2 ^ (8 - s.cmdBitsRem))
      else s.out).getD s.cmdIndex 0 =
      s.out.getD s.cmdIndex 0 + (if b then 1 else 0) * 2 ^ (8 - s.cmdBitsRem) := by
    cases b
    · simp
    · rw [if_pos rfl, if_pos rfl, getD_set_self _ hci, Nat.one_mul]
  rcases Nat.eq_zero_or_pos (s.cmdBitsRem - 1) with h1 | h1
  · -- the written bit completes the command byte: the final byte equals it
    have hfull : F.getD s.cmdIndex 0 = s.out.getD s.cmdIndex 0 +
        (if b then 1 else 0) * 2 ^ (8 - s.cmdBitsRem) := by
      have := hagree s.cmdIndex (by cases b <;> simp [hci]) (by omega)
      rw [this, hset]
    have hrem1 : s.cmdBitsRem = 1 := by omega
    have hsmall : F.getD s.cmdIndex 0 < 2 * 2 ^ (8 - s.cmdBitsRem) := by
      rw [hfull]
      have : (if b then 1 else 0) ≤ 1 := by cases b <;> simp
      nlinarith [hbyte]
    rw [Nat.mod_eq_of_lt hsmall, hfull]
  · -- more bits remain: use the partial-byte clause of `Extends`
    have := hcmd h1
    rw [hset] at this
    rwa [← hpow]

theorem extends_writeBit {F : List Nat} {s : PrsSink} (b : Bool) (hwf : SinkWf s)
    (h : Extends F (s.writeBit b)) : Extends F s := by
  have h8 := hwf.1
  rcases Nat.eq_zero_or_pos s.cmdBitsRem with h0 | hpos
  · rw [writeBit_eq_zero s b h0] at h
    obtain ⟨hlen, hagree, hcmd⟩ := h
    dsimp only at hlen hagree hcmd
    refine ⟨?_, ?_, ?_⟩
    · simp at hlen; omega
    · intro p hp _
      have := hagree p (by simp; omega) (by intro; omega)
      rwa [getD_append_left hp] at this
    · intro hpos
      omega
  · have hci := (hwf.2.2.1 hpos).1
    have hbyte := (hwf.2.2.1 hpos).2
    have hkey := extends_writeBit_key b hwf hpos h
    rw [writeBit_eq_pos s b hpos hbyte] at h
    obtain ⟨hlen, hagree, hcmd⟩ := h
    dsimp only at hlen hagree hcmd
    refine ⟨?_, ?_, ?_⟩
    · cases b <;> simpa using hlen
    · intro p hp hcav
      have hne : p ≠ s.cmdIndex := hcav hpos
      have := hagree p (by cases b <;> simpa using hp) (fun _ => hne)
      rwa [show (if b then
          s.out.set s.cmdIndex (s.out.getD s.cmdIndex 0 + 2 ^ (8 - s.cmdBitsRem))
          else s.out).getD p 0 = s.out.getD p 0 by
        cases b
        · simp
        · rw [if_pos rfl, getD_set_ne _ (Ne.symm hne)]] at this
    · intro _
      have hb1 : (if b then 1 else 0) ≤ 1 := by cases b <;> simp
      obtain ⟨_, _, h3⟩ := bit_extract (Nat.pos_pow_of_pos _ (by omega)) hbyte hb1 hkey
      exact h3

theorem sim_readBit {F : List Nat} {s : PrsSink} {c : Ctx} (b : Bool)
    (hwf : SinkWf s) (hsim : Sim F s c) (hx : Extends F (s.writeBit b)) (hF : Bytes F) :
    ∃ c', readBit F c = .ok (b, c') ∧ Sim F (s.writeBit b) c' := by
  obtain ⟨hpos', hrem', hcmds'⟩ := hsim
  rcases Nat.eq_zero_or_pos s.cmdBitsRem with h0 | hpos
  · -- the encoder allocates a fresh command byte; the decoder refills
    rw [writeBit_eq_zero s b h0] at hx ⊢
    obtain ⟨hlen, hagree, hcmd⟩ := hx
    dsimp only at hlen hagree hcmd
    have hplt : c.pos < F.length := by
      rw [hpos']
      simp at hlen
      omega
    have hFv : F.getD c.pos 0 % 2 = (if b then 1 else 0) := by
      have := hcmd (by omega)
      rw [getD_append_len] at this
      rw [hpos']
      simpa using this
    have hbybound := bytes_getD hF c.pos
    refine ⟨⟨c.pos + 1, F.getD c.pos 0 % 256 / 2, 7⟩, ?_, ?_, ?_, ?_⟩
    · unfold readBit
      rw [if_pos (by omega), if_pos hplt]
      show Except.ok (decide (F.getD c.pos 0 % 256 % 2 = 1),
        (⟨c.pos + 1, F.getD c.pos 0 % 256 / 2, 7⟩ : Ctx)) = _
      have hdec : (decide (F.getD c.pos 0 % 256 % 2 = 1)) = b := by
        rw [Nat.mod_eq_of_lt hbybound]
        cases b
        · simp at hFv; simp [hFv]
        · simp at hFv; simp [hFv]
      rw [hdec]
    · dsimp
      rw [hpos']
      simp
    · rfl
    · intro
      dsimp
      rw [hpos'] at hbybound ⊢
      rw [Nat.mod_eq_of_lt hbybound]
  · -- mid-byte: the decoder shifts its register
    have hci := (hwf.2.2.1 hpos).1
    have hbyte := (hwf.2.2.1 hpos).2
    have hkey := extends_writeBit_key b hwf hpos hx
    have hb1 : (if b then 1 else 0) ≤ 1 := by cases b <;> simp
    obtain ⟨hdig, hdiv, _⟩ := bit_extract (Nat.pos_pow_of_pos _ (by omega)) hbyte hb1 hkey
    rw [writeBit_eq_pos s b hpos hbyte] at hx ⊢
    have hcc := hcmds' hpos
    refine ⟨⟨c.pos, c.cmds / 2, c.rem - 1⟩, ?_, ?_, ?_, ?_⟩
    · unfold readBit
      rw [if_neg (by omega)]
      have hdec : (decide (c.cmds % 2 = 1)) = b := by
        rw [hcc, hdig]
        cases b
        · simp
        · simp
      rw [hdec]
    · dsimp
      rw [hpos']
      cases b <;> simp
    · dsimp; omega
    · intro h1
      dsimp at h1 ⊢
      rw [hcc, hdiv]
      have hpow : (2 : Nat) ^ (8 - (s.cmdBitsRem - 1)) = 2 * 2 ^ (8 - s.cmdBitsRem) := by
        have h8 := hwf.1
        have h9 : 8 - (s.cmdBitsRem - 1) = (8 - s.cmdBitsRem) + 1 := by omega
        rw [h9, Nat.pow_succ]
        ring
      rw [hpow]

theorem sim_readByte {F : List Nat} {s : PrsSink} {c : Ctx} {v : Nat}
    (hwf : SinkWf s) (hsim : Sim F s c) (hx : Extends F (s.push v)) (hv : v < 256) :
    readByte F c = .ok (v, ⟨c.pos + 1, c.cmds, c.rem⟩) ∧
      Sim F (s.push v) ⟨c.pos + 1, c.cmds, c.rem⟩ := by
  obtain ⟨hpos', hrem', hcmds'⟩ := hsim
  obtain ⟨hlen, hagree, hcmd⟩ := hx
  dsimp only [PrsSink.push] at hlen hagree hcmd
  have hplt : c.pos < F.length := by
    simp at hlen
    rw [hpos']
    omega
  have hFv : F.getD c.pos 0 = v := by
    have hcav : 0 < s.cmdBitsRem → s.out.length ≠ s.cmdIndex := by
      intro hp
      have := (hwf.2.2.1 hp).1
      omega
    have := hagree s.out.length (by simp) hcav
    rw [getD_append_len] at this
    rw [hpos']
    exact this
  refine ⟨?_, ?_, ?_, ?_⟩
  · unfold readByte
    rw [if_pos hplt, hFv, Nat.mod_eq_of_lt hv]
  · show c.pos + 1 = (s.out ++ [v]).length
    rw [hpos']
    simp
  · exact hrem'
  · intro hp
    exact hcmds' hp

/-! ## `consume`: branch characterizations and preservation -/

theorem consume_literal (V : Flavor) (s : PrsSink) (b : Nat) :
    PrsSink.consume V s (.literal b) = some ((s.writeBit true).push (b % 256)) := rfl

theorem consume_short (V : Flavor) (s : PrsSink) {len dist : Nat}
    (h2 : ¬ len < 2) (hmax : ¬ V.maxCopyLength < len) (hd : ¬ 8192 ≤ dist)
    (hshort : ¬ (256 ≤ dist ∨ 5 < len)) :
    PrsSink.consume V s (.pointer len dist) = some
      (((((s.writeBit false).writeBit false).writeBit (((len - 2) &&& 2) ≠ 0)).writeBit
        (((len - 2) &&& 1) ≠ 0)).push ((-(dist : Int)) % 256).toNat) := by
  unfold PrsSink.consume
  dsimp only
  rw [if_neg h2, if_neg hmax, if_neg hd, if_neg hshort]

theorem consume_long_noext (V : Flavor) (s : PrsSink) {len dist : Nat}
    (h2 : ¬ len < 2) (hmax : ¬ V.maxCopyLength < len) (hd : ¬ 8192 ≤ dist)
    (hlong : 256 ≤ dist ∨ 5 < len) (hlt : len - 2 < 8) :
    PrsSink.consume V s (.pointer len dist) = some
      ((((s.writeBit false).writeBit true).push
          (((-(dist : Int) * 8 + ((len - 2 : Nat) : Int)) % 65536).toNat % 256)).push
        (((-(dist : Int) * 8 + ((len - 2 : Nat) : Int)) % 65536).toNat / 256)) := by
  unfold PrsSink.consume
  dsimp only
  rw [if_neg h2, if_neg hmax, if_neg hd, if_pos hlong, if_pos hlt, if_neg (by omega : ¬ 8 ≤ len - 2)]

theorem consume_long_ext (V : Flavor) (s : PrsSink) {len dist : Nat}
    (h2 : ¬ len < 2) (hmax : ¬ V.maxCopyLength < len) (hd : ¬ 8192 ≤ dist)
    (hlong : 256 ≤ dist ∨ 5 < len) (hge : 8 ≤ len - 2) :
    PrsSink.consume V s (.pointer len dist) = some
      (((((s.writeBit false).writeBit true).push
            (((-(dist : Int) * 8) % 65536).toNat % 256)).push
          (((-(dist : Int) * 8) % 65536).toNat / 256)).push
        ((len - V.minLongCopyLength) % 256)) := by
  unfold PrsSink.consume
  dsimp only
  rw [if_neg h2, if_neg hmax, if_neg hd, if_pos hlong, if_neg (by omega : ¬ len - 2 < 8), if_pos hge]

theorem emod_toNat_lt_65536 (x : Int) : (x % 65536).toNat < 65536 := by omega

theorem emod_toNat_lt_256 (x : Int) : (x % 256).toNat < 256 := by omega

theorem consume_ptr_none (V : Flavor) (s : PrsSink) {len dist : Nat}
    (h : len < 2 ∨ V.maxCopyLength < len ∨ 8192 ≤ dist) :
    PrsSink.consume V s (.pointer len dist) = none := by
  unfold PrsSink.consume
  dsimp only
  by_cases h2 : len < 2
  · rw [if_pos h2]
  · rw [if_neg h2]
    by_cases hmax : V.maxCopyLength < len
    · rw [if_pos hmax]
    · rw [if_neg hmax, if_pos (by omega)]

/-! ## Decoding the numeric payloads -/

/-- The command the decoder recovers for a token (`Cmd::Pointer(dist, len)`
from `Code::Pointer { length, backward_distance }`). -/
def decodedCmd : Code → Cmd
  | .literal b => .literal b
  | .pointer len dist => .pointer dist len

theorem short_size_bits {len : Nat} (h2 : 2 ≤ len) (h5 : len ≤ 5) :
    ((if decide (((len - 2) &&& 1) ≠ 0) then (1 : Nat) else 0) +
      2 * (if decide (((len - 2) &&& 2) ≠ 0) then (1 : Nat) else 0)) + 2 = len := by
  interval_cases len <;> decide

theorem short_dist_decode {dist : Nat} (h1 : 1 ≤ dist) (h255 : dist < 256) :
    (-(orNeg256 ((((-(dist : Int)) % 256).toNat : Nat) : Int))).toNat = dist := by
  unfold orNeg256
  omega

theorem long_decode_noext {len dist v : Nat}
    (hv : v = ((-(dist : Int) * 8 + ((len - 2 : Nat) : Int)) % 65536).toNat)
    (h1 : 1 ≤ dist) (h8191 : dist ≤ 8191) (hs1 : 1 ≤ len - 2) (hs7 : len - 2 < 8) :
    v ≠ 0 ∧ ((i16OfRaw v) % 8).toNat = len - 2 ∧
      (-(orNeg8192 ((i16OfRaw v) / 8))).toNat = dist := by
  have he : (-(dist : Int) * 8 + ((len - 2 : Nat) : Int)) % 65536 =
      65536 - 8 * (dist : Int) + ((len - 2 : Nat) : Int) := by omega
  have hveq : (v : Int) = 65536 - 8 * (dist : Int) + ((len - 2 : Nat) : Int) := by omega
  unfold i16OfRaw orNeg8192
  split_ifs <;> refine ⟨by omega, by omega, by omega⟩

theorem long_decode_ext {dist v : Nat}
    (hv : v = ((-(dist : Int) * 8) % 65536).toNat)
    (h1 : 1 ≤ dist) (h8191 : dist ≤ 8191) :
    v ≠ 0 ∧ ((i16OfRaw v) % 8).toNat = 0 ∧
      (-(orNeg8192 ((i16OfRaw v) / 8))).toNat = dist := by
  have he : (-(dist : Int) * 8) % 65536 = 65536 - 8 * (dist : Int) := by omega
  have hveq : (v : Int) = 65536 - 8 * (dist : Int) := by omega
  unfold i16OfRaw orNeg8192
  split_ifs <;> refine ⟨by omega, by omega, by omega⟩

/-! ## Decoding one token under the simulation -/

theorem sim_consume_literal {V : Flavor} {F : List Nat} {s : PrsSink} {c : Ctx} {b : Nat}
    (hwf : SinkWf s) (hsim : Sim F s c) (hF : Bytes F) (hb : b < 256)
    (hx : Extends F ((s.writeBit true).push (b % 256))) :
    ∃ c', nextCmd F V c = .ok (c', some (.literal b)) ∧
      Sim F ((s.writeBit true).push (b % 256)) c' := by
  have w1 := sinkWf_writeBit hwf true
  have hxw : Extends F (s.writeBit true) := extends_push w1 hx
  obtain ⟨c1, hr1, hs1⟩ := sim_readBit true hwf hsim hxw hF
  have hbeq : b % 256 = b := Nat.mod_eq_of_lt hb
  rw [hbeq] at hx
  obtain ⟨hr2, hs2⟩ := sim_readByte w1 hs1 hx hb
  refine ⟨⟨c1.pos + 1, c1.cmds, c1.rem⟩, ?_, ?_⟩
  · unfold nextCmd
    rw [hr1]
    dsimp only
    rw [hr2]
  · rw [hbeq]
    exact hs2

theorem sim_consume_short {V : Flavor} {F : List Nat} {s : PrsSink} {c : Ctx} {len dist : Nat}
    (hwf : SinkWf s) (hsim : Sim F s c) (hF : Bytes F)
    (h2 : 2 ≤ len) (h5 : len ≤ 5) (hd1 : 1 ≤ dist) (hd255 : dist < 256)
    (hx : Extends F (((((s.writeBit false).writeBit false).writeBit
        (((len - 2) &&& 2) ≠ 0)).writeBit (((len - 2) &&& 1) ≠ 0)).push
      ((-(dist : Int)) % 256).toNat)) :
    ∃ c', nextCmd F V c = .ok (c', some (.pointer dist len)) ∧
      Sim F (((((s.writeBit false).writeBit false).writeBit
          (((len - 2) &&& 2) ≠ 0)).writeBit (((len - 2) &&& 1) ≠ 0)).push
        ((-(dist : Int)) % 256).toNat) c' := by
  have w1 := sinkWf_writeBit hwf false
  have w2 := sinkWf_writeBit w1 false
  have w3 := sinkWf_writeBit w2 ((((len - 2) &&& 2) ≠ 0 : Prop))
  have w4 := sinkWf_writeBit w3 ((((len - 2) &&& 1) ≠ 0 : Prop))
  have hx4 := extends_push w4 hx
  have hx3 := extends_writeBit _ w3 hx4
  have hx2 := extends_writeBit _ w2 hx3
  have hx1 := extends_writeBit _ w1 hx2
  obtain ⟨c1, hr1, hsim1⟩ := sim_readBit false hwf hsim hx1 hF
  obtain ⟨c2, hr2, hsim2⟩ := sim_readBit false w1 hsim1 hx2 hF
  obtain ⟨c3, hr3, hsim3⟩ := sim_readBit _ w2 hsim2 hx3 hF
  obtain ⟨c4, hr4, hsim4⟩ := sim_readBit _ w3 hsim3 hx4 hF
  obtain ⟨hr5, hsim5⟩ := sim_readByte w4 hsim4 hx (emod_toNat_lt_256 _)
  refine ⟨⟨c4.pos + 1, c4.cmds, c4.rem⟩, ?_, hsim5⟩
  unfold nextCmd
  rw [hr1]
  dsimp only
  rw [hr2]
  dsimp only
  rw [hr3]
  dsimp only
  rw [hr4]
  dsimp only
  rw [hr5]
  dsimp only
  rw [short_size_bits h2 h5, short_dist_decode hd1 hd255]

theorem sim_consume_long_noext {V : Flavor} {F : List Nat} {s : PrsSink} {c : Ctx}
    {len dist : Nat}
    (hwf : SinkWf s) (hsim : Sim F s c) (hF : Bytes F)
    (h2 : 2 ≤ len) (hd1 : 1 ≤ dist) (hd8191 : dist ≤ 8191)
    (hlong : 256 ≤ dist ∨ 5 < len) (hmin3 : 256 ≤ dist → 3 ≤ len) (hlt : len - 2 < 8)
    (hx : Extends F ((((s.writeBit false).writeBit true).push
        (((-(dist : Int) * 8 + ((len - 2 : Nat) : Int)) % 65536).toNat % 256)).push
      (((-(dist : Int) * 8 + ((len - 2 : Nat) : Int)) % 65536).toNat / 256))) :
    ∃ c', nextCmd F V c = .ok (c', some (.pointer dist len)) ∧
      Sim F ((((s.writeBit false).writeBit true).push
          (((-(dist : Int) * 8 + ((len - 2 : Nat) : Int)) % 65536).toNat % 256)).push
        (((-(dist : Int) * 8 + ((len - 2 : Nat) : Int)) % 65536).toNat / 256)) c' := by
  have hs1 : 1 ≤ len - 2 := by
    rcases hlong with hlong | hlong
    · have := hmin3 hlong; omega
    · omega
  obtain ⟨hv0, hm, hdist⟩ := long_decode_noext rfl hd1 hd8191 hs1 hlt
  have hvlt := emod_toNat_lt_65536 (-(dist : Int) * 8 + ((len - 2 : Nat) : Int))
  have w1 := sinkWf_writeBit hwf false
  have w2 := sinkWf_writeBit w1 true
  have w3 : SinkWf (((s.writeBit false).writeBit true).push
      ((((-(dist : Int) * 8 + ((len - 2 : Nat) : Int)) % 65536).toNat) % 256)) :=
    sinkWf_push w2 (Nat.mod_lt _ (by omega))
  have hx3 := extends_push w3 hx
  have hx2 := extends_push w2 hx3
  have hx1 := extends_writeBit _ w1 hx2
  obtain ⟨c1, hr1, hsim1⟩ := sim_readBit false hwf hsim hx1 hF
  obtain ⟨c2, hr2, hsim2⟩ := sim_readBit true w1 hsim1 hx2 hF
  obtain ⟨hr3, hsim3⟩ := sim_readByte w2 hsim2 hx3 (Nat.mod_lt _ (by omega))
  obtain ⟨hr4, hsim4⟩ := sim_readByte w3 hsim3 hx (by omega)
  refine ⟨_, ?_, hsim4⟩
  unfold nextCmd
  rw [hr1]
  dsimp only
  rw [hr2]
  dsimp only
  rw [hr3]
  dsimp only
  rw [hr4]
  dsimp only
  rw [Nat.mod_add_div]
  rw [if_neg hv0]
  rw [hm, if_neg (by omega : ¬ (len - 2 = 0)), hdist,
    (by omega : (len - 2) + 2 = len)]

theorem sim_consume_long_ext {V : Flavor} {F : List Nat} {s : PrsSink} {c : Ctx}
    {len dist : Nat}
    (hwf : SinkWf s) (hsim : Sim F s c) (hF : Bytes F)
    (hd1 : 1 ≤ dist) (hd8191 : dist ≤ 8191) (hge : 8 ≤ len - 2)
    (hmax : len ≤ V.maxCopyLength)
    (hx : Extends F (((((s.writeBit false).writeBit true).push
          ((((-(dist : Int) * 8) % 65536).toNat) % 256)).push
        ((((-(dist : Int) * 8) % 65536).toNat) / 256)).push
      ((len - V.minLongCopyLength) % 256))) :
    ∃ c', nextCmd F V c = .ok (c', some (.pointer dist len)) ∧
      Sim F (((((s.writeBit false).writeBit true).push
            ((((-(dist : Int) * 8) % 65536).toNat) % 256)).push
          ((((-(dist : Int) * 8) % 65536).toNat) / 256)).push
        ((len - V.minLongCopyLength) % 256)) c' := by
  obtain ⟨hv0, hm, hdist⟩ := long_decode_ext rfl hd1 hd8191
  have hvlt := emod_toNat_lt_65536 (-(dist : Int) * 8)
  have hMIN : V.minLongCopyLength = 1 ∨ V.minLongCopyLength = 10 := by
    cases V <;> simp [Flavor.minLongCopyLength]
  have hmaxeq : V.maxCopyLength = 255 + V.minLongCopyLength := rfl
  have w1 := sinkWf_writeBit hwf false
  have w2 := sinkWf_writeBit w1 true
  have w3 : SinkWf (((s.writeBit false).writeBit true).push
      ((((-(dist : Int) * 8) % 65536).toNat) % 256)) :=
    sinkWf_push w2 (Nat.mod_lt _ (by omega))
  have w4 : SinkWf ((((s.writeBit false).writeBit true).push
        ((((-(dist : Int) * 8) % 65536).toNat) % 256)).push
      ((((-(dist : Int) * 8) % 65536).toNat) / 256)) :=
    sinkWf_push w3 (by omega)
  have hx4 := extends_push w4 hx
  have hx3 := extends_push w3 hx4
  have hx2 := extends_push w2 hx3
  have hx1 := extends_writeBit _ w1 hx2
  obtain ⟨c1, hr1, hsim1⟩ := sim_readBit false hwf hsim hx1 hF
  obtain ⟨c2, hr2, hsim2⟩ := sim_readBit true w1 hsim1 hx2 hF
  obtain ⟨hr3, hsim3⟩ := sim_readByte w2 hsim2 hx3 (Nat.mod_lt _ (by omega))
  obtain ⟨hr4, hsim4⟩ := sim_readByte w3 hsim3 hx4 (by omega)
  obtain ⟨hr5, hsim5⟩ := sim_readByte w4 hsim4 hx (Nat.mod_lt _ (by omega))
  refine ⟨_, ?_, hsim5⟩
  unfold nextCmd
  rw [hr1]
  dsimp only
  rw [hr2]
  dsimp only
  rw [hr3]
  dsimp only
  rw [hr4]
  dsimp only
  rw [Nat.mod_add_div]
  rw [if_neg hv0]
  rw [hm, if_pos rfl]
  rw [hr5]
  dsimp only
  rw [hdist, (by omega : (len - V.minLongCopyLength) % 256 + V.minLongCopyLength = len)]

theorem sinkWf_consume {V : Flavor} {s s' : PrsSink} {code : Code}
    (h : SinkWf s) (hc : PrsSink.consume V s code = some s') : SinkWf s' := by
  cases code with
  | literal b =>
    rw [consume_literal] at hc
    cases hc
    exact sinkWf_push (sinkWf_writeBit h true) (Nat.mod_lt _ (by omega))
  | pointer len dist =>
    by_cases h2 : len < 2
    · rw [consume_ptr_none V s (Or.inl h2)] at hc; cases hc
    by_cases hmax : V.maxCopyLength < len
    · rw [consume_ptr_none V s (Or.inr (Or.inl hmax))] at hc; cases hc
    by_cases hd : 8192 ≤ dist
    · rw [consume_ptr_none V s (Or.inr (Or.inr hd))] at hc; cases hc
    by_cases hlong : 256 ≤ dist ∨ 5 < len
    · by_cases hlt : len - 2 < 8
      · rw [consume_long_noext V s h2 hmax hd hlong hlt] at hc
        cases hc
        have hv := emod_toNat_lt_65536 (-(dist : Int) * 8 + ((len - 2 : Nat) : Int))
        exact sinkWf_push
          (sinkWf_push (sinkWf_writeBit (sinkWf_writeBit h false) true)
            (Nat.mod_lt _ (by omega)))
          (by omega)
      · rw [consume_long_ext V s h2 hmax hd hlong (by omega)] at hc
        cases hc
        have hv := emod_toNat_lt_65536 (-(dist : Int) * 8)
        exact sinkWf_push
          (sinkWf_push
            (sinkWf_push (sinkWf_writeBit (sinkWf_writeBit h false) true)
              (Nat.mod_lt _ (by omega)))
            (by omega))
          (Nat.mod_lt _ (by omega))
    · rw [consume_short V s h2 hmax hd hlong] at hc
      cases hc
      exact sinkWf_push
        (sinkWf_writeBit (sinkWf_writeBit (sinkWf_writeBit (sinkWf_writeBit h false) false) _) _)
        (emod_toNat_lt_256 _)

theorem consume_isSome {V : Flavor} {pos : Nat} {code : Code} (s : PrsSink)
    (hv : validCode V pos code) : ∃ s', PrsSink.consume V s code = some s' := by
  cases code with
  | literal b => exact ⟨_, consume_literal V s b⟩
  | pointer len dist =>
    obtain ⟨h2, hmax, hd1, hd2, hdp, hmin3⟩ := hv
    have h2' : ¬ len < 2 := by omega
    have hmax' : ¬ V.maxCopyLength < len := by omega
    have hd' : ¬ 8192 ≤ dist := by omega
    by_cases hlong : 256 ≤ dist ∨ 5 < len
    · by_cases hlt : len - 2 < 8
      · exact ⟨_, consume_long_noext V s h2' hmax' hd' hlong hlt⟩
      · exact ⟨_, consume_long_ext V s h2' hmax' hd' hlong (by omega)⟩
    · exact ⟨_, consume_short V s h2' hmax' hd' hlong⟩

theorem writeBit_length (s : PrsSink) (b : Bool) :
    s.out.length ≤ (s.writeBit b).out.length ∧
      (s.writeBit b).out.length ≤ s.out.length + 1 := by
  unfold PrsSink.writeBit
  dsimp only
  split <;> split <;> simp

theorem push_length (s : PrsSink) (v : Nat) :
    (s.push v).out.length = s.out.length + 1 := by
  simp [PrsSink.push]

theorem consume_length {V : Flavor} {s s' : PrsSink} {code : Code}
    (hc : PrsSink.consume V s code = some s') :
    s.out.length + 1 ≤ s'.out.length := by
  cases code with
  | literal b =>
    rw [consume_literal] at hc
    cases hc
    rw [push_length]
    have := (writeBit_length s true).1
    omega
  | pointer len dist =>
    by_cases h2 : len < 2
    · rw [consume_ptr_none V s (Or.inl h2)] at hc; cases hc
    by_cases hmax : V.maxCopyLength < len
    · rw [consume_ptr_none V s (Or.inr (Or.inl hmax))] at hc; cases hc
    by_cases hd : 8192 ≤ dist
    · rw [consume_ptr_none V s (Or.inr (Or.inr hd))] at hc; cases hc
    by_cases hlong : 256 ≤ dist ∨ 5 < len
    · by_cases hlt : len - 2 < 8
      · rw [consume_long_noext V s h2 hmax hd hlong hlt] at hc
        cases hc
        rw [push_length, push_length]
        have h1 := (writeBit_length s false).1
        have h2 := (writeBit_length (s.writeBit false) true).1
        omega
      · rw [consume_long_ext V s h2 hmax hd hlong (by omega)] at hc
        cases hc
        rw [push_length, push_length, push_length]
        have h1 := (writeBit_length s false).1
        have h2 := (writeBit_length (s.writeBit false) true).1
        omega
    · rw [consume_short V s h2 hmax hd hlong] at hc
      cases hc
      rw [push_length]
      have h1 := (writeBit_length s false).1
      have h2 := (writeBit_length (s.writeBit false) false).1
      have h3 := (writeBit_length ((s.writeBit false).writeBit false) (((len - 2) &&& 2) ≠ 0)).1
      have h4 := (writeBit_length (((s.writeBit false).writeBit false).writeBit
        (((len - 2) &&& 2) ≠ 0)) (((len - 2) &&& 1) ≠ 0)).1
      omega

theorem extends_consume {V : Flavor} {F : List Nat} {s s' : PrsSink} {code : Code}
    (hwf : SinkWf s) (hc : PrsSink.consume V s code = some s') (h : Extends F s') :
    Extends F s := by
  cases code with
  | literal b =>
    rw [consume_literal] at hc
    cases hc
    exact extends_writeBit true hwf (extends_push (sinkWf_writeBit hwf true) h)
  | pointer len dist =>
    by_cases h2 : len < 2
    · rw [consume_ptr_none V s (Or.inl h2)] at hc; cases hc
    by_cases hmax : V.maxCopyLength < len
    · rw [consume_ptr_none V s (Or.inr (Or.inl hmax))] at hc; cases hc
    by_cases hd : 8192 ≤ dist
    · rw [consume_ptr_none V s (Or.inr (Or.inr hd))] at hc; cases hc
    by_cases hlong : 256 ≤ dist ∨ 5 < len
    · by_cases hlt : len - 2 < 8
      · rw [consume_long_noext V s h2 hmax hd hlong hlt] at hc
        cases hc
        have w1 := sinkWf_writeBit hwf false
        have w2 := sinkWf_writeBit w1 true
        have w3 : SinkWf (((s.writeBit false).writeBit true).push
            ((((-(dist : Int) * 8 + ((len - 2 : Nat) : Int)) % 65536).toNat) % 256)) :=
          sinkWf_push w2 (Nat.mod_lt _ (by omega))
        exact extends_writeBit false hwf (extends_writeBit true w1
          (extends_push w2 (extends_push w3 h)))
      · rw [consume_long_ext V s h2 hmax hd hlong (by omega)] at hc
        cases hc
        have hv := emod_toNat_lt_65536 (-(dist : Int) * 8)
        have w1 := sinkWf_writeBit hwf false
        have w2 := sinkWf_writeBit w1 true
        have w3 : SinkWf (((s.writeBit false).writeBit true).push
            ((((-(dist : Int) * 8) % 65536).toNat) % 256)) :=
          sinkWf_push w2 (Nat.mod_lt _ (by omega))
        have w4 : SinkWf ((((s.writeBit false).writeBit true).push
            ((((-(dist : Int) * 8) % 65536).toNat) % 256)).push
            ((((-(dist : Int) * 8) % 65536).toNat) / 256)) :=
          sinkWf_push w3 (by omega)
        exact extends_writeBit false hwf (extends_writeBit true w1
          (extends_push w2 (extends_push w3 (extends_push w4 h))))
    · rw [consume_short V s h2 hmax hd hlong] at hc
      cases hc
      have w1 := sinkWf_writeBit hwf false
      have w2 := sinkWf_writeBit w1 false
      have w3 := sinkWf_writeBit w2 (((len - 2) &&& 2) ≠ 0)
      have w4 := sinkWf_writeBit w3 (((len - 2) &&& 1) ≠ 0)
      exact extends_writeBit false hwf (extends_writeBit false w1
        (extends_writeBit _ w2 (extends_writeBit _ w3 (extends_push w4 h))))


/-! ## The whole-stream simulation -/

theorem sim_consume {V : Flavor} {F : List Nat} {s s' : PrsSink} {c : Ctx} {code : Code}
    {pos : Nat} (hwf : SinkWf s) (hsim : Sim F s c) (hF : Bytes F)
    (hv : validCode V pos code) (hc : PrsSink.consume V s code = some s')
    (hx : Extends F s') :
    ∃ c', nextCmd F V c = .ok (c', some (decodedCmd code)) ∧ Sim F s' c' := by
  cases code with
  | literal b =>
    rw [consume_literal] at hc
    cases hc
    exact sim_consume_literal hwf hsim hF hv hx
  | pointer len dist =>
    obtain ⟨h2, hmax, hd1, hd8191, hdp, hmin3⟩ := hv
    have h2' : ¬ len < 2 := by omega
    have hmax' : ¬ V.maxCopyLength < len := by omega
    have hd' : ¬ 8192 ≤ dist := by omega
    by_cases hlong : 256 ≤ dist ∨ 5 < len
    · by_cases hlt : len - 2 < 8
      · rw [consume_long_noext V s h2' hmax' hd' hlong hlt] at hc
        cases hc
        exact sim_consume_long_noext hwf hsim hF h2 hd1 hd8191 hlong hmin3 hlt hx
      · rw [consume_long_ext V s h2' hmax' hd' hlong (by omega)] at hc
        cases hc
        exact sim_consume_long_ext hwf hsim hF hd1 hd8191 (by omega) hmax hx
    · have h5 : len ≤ 5 := by omega
      have h255 : dist < 256 := by omega
      rw [consume_short V s h2' hmax' hd' hlong] at hc
      cases hc
      exact sim_consume_short hwf hsim hF h2 h5 hd1 h255 hx

theorem sinkWf_consumeAll {V : Flavor} : ∀ {ts : List Code} {s s' : PrsSink},
    SinkWf s → consumeAll V s ts = some s' → SinkWf s'
  | [], s, s', hwf, hc => by
    unfold consumeAll at hc
    cases hc
    exact hwf
  | c :: ts, s, s', hwf, hc => by
    unfold consumeAll at hc
    cases hc1 : PrsSink.consume V s c with
    | none => rw [hc1] at hc; cases hc
    | some s1 =>
      rw [hc1] at hc
      exact sinkWf_consumeAll (sinkWf_consume hwf hc1) hc

theorem extends_consumeAll {V : Flavor} {F : List Nat} : ∀ {ts : List Code} {s s' : PrsSink},
    SinkWf s → consumeAll V s ts = some s' → Extends F s' → Extends F s
  | [], s, s', hwf, hc, hx => by
    unfold consumeAll at hc
    cases hc
    exact hx
  | c :: ts, s, s', hwf, hc, hx => by
    unfold consumeAll at hc
    cases hc1 : PrsSink.consume V s c with
    | none => rw [hc1] at hc; cases hc
    | some s1 =>
      rw [hc1] at hc
      exact extends_consume hwf hc1
        (extends_consumeAll (sinkWf_consume hwf hc1) hc hx)

theorem extends_finish {s : PrsSink} (hwf : SinkWf s) :
    Extends (PrsSink.finish s) s := by
  have w1 := sinkWf_writeBit hwf false
  have w2 := sinkWf_writeBit w1 true
  have w3 := sinkWf_push w2 (show (0 : Nat) < 256 by omega)
  have w4 := sinkWf_push w3 (show (0 : Nat) < 256 by omega)
  have hxfin : Extends (PrsSink.finish s) ((((s.writeBit false).writeBit true).push 0).push 0) := by
    have h := extends_self w4 []
    rwa [List.append_nil] at h
  exact extends_writeBit _ hwf (extends_writeBit _ w1
    (extends_push w2 (extends_push w3 hxfin)))

theorem bytes_finish {s : PrsSink} (hwf : SinkWf s) : Bytes (PrsSink.finish s) := by
  have w1 := sinkWf_writeBit hwf false
  have w2 := sinkWf_writeBit w1 true
  have w3 := sinkWf_push w2 (show (0 : Nat) < 256 by omega)
  have w4 := sinkWf_push w3 (show (0 : Nat) < 256 by omega)
  exact w4.2.2.2

theorem sim_eof {V : Flavor} {s : PrsSink} {c : Ctx}
    (hwf : SinkWf s) (hsim : Sim (PrsSink.finish s) s c) :
    ∃ c', nextCmd (PrsSink.finish s) V c = .ok (c', none) := by
  have hF := bytes_finish hwf
  have w1 := sinkWf_writeBit hwf false
  have w2 := sinkWf_writeBit w1 true
  have w3 := sinkWf_push w2 (show (0 : Nat) < 256 by omega)
  have w4 := sinkWf_push w3 (show (0 : Nat) < 256 by omega)
  have hxfin : Extends (PrsSink.finish s) ((((s.writeBit false).writeBit true).push 0).push 0) := by
    have h := extends_self w4 []
    rwa [List.append_nil] at h
  have hx3 := extends_push w3 hxfin
  have hx2 := extends_push w2 hx3
  have hx1 := extends_writeBit _ w1 hx2
  obtain ⟨c1, hr1, hsim1⟩ := sim_readBit false hwf hsim hx1 hF
  obtain ⟨c2, hr2, hsim2⟩ := sim_readBit true w1 hsim1 hx2 hF
  obtain ⟨hr3, hsim3⟩ := sim_readByte w2 hsim2 hx3 (by omega)
  obtain ⟨hr4, hsim4⟩ := sim_readByte w3 hsim3 hxfin (by omega)
  refine ⟨⟨c2.pos + 1 + 1, c2.cmds, c2.rem⟩, ?_⟩
  unfold nextCmd
  rw [hr1]
  dsimp only
  rw [hr2]
  dsimp only
  rw [hr3]
  dsimp only
  rw [hr4]
  simp

theorem lzCopy_length (dist : Nat) : ∀ (n : Nat) (w : List Nat),
    (lzCopy dist n w).length = w.length + n
  | 0, w => rfl
  | n + 1, w => by
    unfold lzCopy
    rw [lzCopy_length dist n]
    simp
    omega

theorem copyLoop_ok {dist fl : Nat} (h1 : 1 ≤ dist) : ∀ (n : Nat) (w : List Nat),
    dist ≤ w.length → copyLoop dist fl n w = .ok (lzCopy dist n w)
  | 0, w, _ => rfl
  | n + 1, w, hw => by
    unfold copyLoop lzCopy
    rw [if_neg (by omega)]
    exact copyLoop_ok h1 n _ (by simp; omega)

theorem decode_sim {V : Flavor} : ∀ (ts : List Code) (fuel : Nat) (s s₃ : PrsSink)
    (c : Ctx) (w : List Nat),
    SinkWf s → consumeAll V s ts = some s₃ →
    validCodes V w.length ts →
    Sim (PrsSink.finish s₃) s c →
    ts.length + 1 ≤ fuel →
    decodeLoop (PrsSink.finish s₃) V fuel c w = some (.ok (codesOutput w ts))
  | [], fuel, s, s₃, c, w, hwf, hc, hval, hsim, hfuel => by
    unfold consumeAll at hc
    cases hc
    obtain ⟨fuel', rfl⟩ : ∃ f, fuel = f + 1 := ⟨fuel - 1, by omega⟩
    obtain ⟨c', hr⟩ := sim_eof hwf hsim
    unfold decodeLoop
    rw [hr]
    rfl
  | c₀ :: tr, fuel, s, s₃, c, w, hwf, hc, hval, hsim, hfuel => by
    obtain ⟨hv0, hvr⟩ := hval
    unfold consumeAll at hc
    cases hc1 : PrsSink.consume V s c₀ with
    | none => rw [hc1] at hc; cases hc
    | some s1 =>
      rw [hc1] at hc
      have hwf1 := sinkWf_consume hwf hc1
      have hwf3 := sinkWf_consumeAll hwf1 hc
      have hx1 : Extends (PrsSink.finish s₃) s1 :=
        extends_consumeAll hwf1 hc (extends_finish hwf3)
      have hF := bytes_finish hwf3
      obtain ⟨c', hr, hsim'⟩ := sim_consume hwf hsim hF hv0 hc1 hx1
      obtain ⟨fuel', rfl⟩ : ∃ f, fuel = f + 1 := ⟨fuel - 1, by omega⟩
      unfold decodeLoop
      rw [hr]
      cases c₀ with
      | literal b =>
        dsimp only [decodedCmd]
        have := decode_sim tr fuel' s1 s₃ c' (w ++ [b]) hwf1 hc
          (by simpa using hvr) hsim' (by simp at hfuel ⊢; omega)
        rw [this]
        rfl
      | pointer len dist =>
        dsimp only [decodedCmd]
        obtain ⟨p2, pmax, pd1, pd8191, pdp, pmin3⟩ := hv0
        rw [copyLoop_ok pd1 len w pdp]
        dsimp only
        have := decode_sim tr fuel' s1 s₃ c' (lzCopy dist len w) hwf1 hc
          (by rw [lzCopy_length]; exact hvr) hsim' (by simp at hfuel ⊢; omega)
        rw [this]
        rfl

theorem consumeAll_isSome {V : Flavor} : ∀ (ts : List Code) (pos : Nat) (s : PrsSink),
    validCodes V pos ts → ∃ s', consumeAll V s ts = some s'
  | [], _, s, _ => ⟨s, rfl⟩
  | c :: ts, pos, s, hval => by
    obtain ⟨hv0, hvr⟩ := hval
    obtain ⟨s1, hc1⟩ := consume_isSome s hv0
    obtain ⟨s', hc⟩ := consumeAll_isSome ts _ s1 hvr
    refine ⟨s', ?_⟩
    unfold consumeAll
    rw [hc1]
    exact hc

theorem consumeAll_length {V : Flavor} : ∀ {ts : List Code} {s s' : PrsSink},
    consumeAll V s ts = some s' → s.out.length + ts.length ≤ s'.out.length
  | [], s, s', hc => by
    unfold consumeAll at hc
    cases hc
    simp
  | c :: ts, s, s', hc => by
    unfold consumeAll at hc
    cases hc1 : PrsSink.consume V s c with
    | none => rw [hc1] at hc; cases hc
    | some s1 =>
      rw [hc1] at hc
      have h1 := consume_length hc1
      have h2 := consumeAll_length hc
      simp
      omega

theorem finish_length (s : PrsSink) : s.out.length + 2 ≤ (PrsSink.finish s).length := by
  have h1 := (writeBit_length s false).1
  have h2 := (writeBit_length (s.writeBit false) true).1
  show _ ≤ ((((s.writeBit false).writeBit true).push 0).push 0).out.length
  rw [push_length, push_length]
  omega

theorem finish_eq_append (s : PrsSink) :
    PrsSink.finish s = (((s.writeBit false).writeBit true).push 0).out ++ [0] := rfl

/-- The roundtrip, generic in the token stream the match-finder produces:
any token stream obeying the match-finder contract that reconstructs `B`
is compressed by the sink into a byte stream which decompresses to `B`. -/
theorem roundtrip_tokens {V : Flavor} {ts : List Code} {B : List Nat}
    (hv : validCodes V 0 ts) (hB : codesOutput [] ts = B) :
    ∃ enc, compressTokens V ts = some enc ∧ decompressBuf V enc = .ok B := by
  obtain ⟨s₃, hc⟩ := consumeAll_isSome ts 0 .init hv
  refine ⟨PrsSink.finish s₃, ?_, ?_⟩
  · unfold compressTokens
    rw [hc]
    rfl
  · have hwf3 := sinkWf_consumeAll sinkWf_init hc
    have hsim0 : Sim (PrsSink.finish s₃) .init ⟨0, 0, 0⟩ :=
      ⟨rfl, rfl, fun h => absurd h (by simp [PrsSink.init])⟩
    have h1 := consumeAll_length hc
    have h2 := finish_length s₃
    simp [PrsSink.init] at h1
    have hfuel : ts.length + 1 ≤ (PrsSink.finish s₃).length + 1 := by omega
    have hloop := decode_sim ts ((PrsSink.finish s₃).length + 1) .init s₃ ⟨0, 0, 0⟩ []
      sinkWf_init hc hv hsim0 hfuel
    unfold decompressBuf
    rw [if_neg (by rw [finish_eq_append]; simp)]
    rw [hloop, hB]

/-! ## Invalid-pointer characterization -/

theorem copyLoop_bad {dist fl n : Nat} {w : List Nat} (hn : n ≠ 0)
    (hbad : dist = 0 ∨ w.length < dist) :
    copyLoop dist fl n w = .error (.invalidPointer dist fl w.length) := by
  obtain ⟨m, rfl⟩ : ∃ m, n = m + 1 := ⟨n - 1, by omega⟩
  unfold copyLoop
  rw [if_pos hbad]

theorem copyLoop_error_spec {dist fl : Nat} : ∀ {n : Nat} {w : List Nat} {e},
    copyLoop dist fl n w = .error e →
    e = .invalidPointer dist fl w.length ∧ (dist = 0 ∨ w.length < dist)
  | 0, w, e, h => by
    unfold copyLoop at h
    cases h
  | n + 1, w, e, h => by
    unfold copyLoop at h
    by_cases hbad : dist = 0 ∨ w.length < dist
    · rw [if_pos hbad] at h
      cases h
      exact ⟨rfl, hbad⟩
    · rw [if_neg hbad] at h
      rw [copyLoop_ok (by omega) n _ (by simp; omega)] at h
      cases h

theorem readBit_error_eof {buf : List Nat} {c : Ctx} {e : DecompressError}
    (h : readBit buf c = .error e) : e = .eof := by
  unfold readBit at h
  split_ifs at h
  all_goals simp_all

theorem readByte_error_eof {buf : List Nat} {c : Ctx} {e : DecompressError}
    (h : readByte buf c = .error e) : e = .eof := by
  unfold readByte at h
  split_ifs at h
  all_goals simp_all

theorem nextCmd_error_eof {buf : List Nat} {V : Flavor} {c : Ctx} {e : DecompressError}
    (h : nextCmd buf V c = .error e) : e = .eof := by
  unfold nextCmd at h
  cases h1 : readBit buf c with
  | error e1 =>
    rw [h1] at h
    simp only [] at h
    cases h
    exact readBit_error_eof h1
  | ok r1 =>
    obtain ⟨b1, c1⟩ := r1
    cases b1 with
    | true =>
      rw [h1] at h
      simp only [] at h
      cases h2 : readByte buf c1 with
      | error e2 =>
        rw [h2] at h
        simp only [] at h
        cases h
        exact readByte_error_eof h2
      | ok r2 =>
        obtain ⟨b2, c2⟩ := r2
        rw [h2] at h
        simp only [] at h
        cases h
    | false =>
      rw [h1] at h
      simp only [] at h
      cases h2 : readBit buf c1 with
      | error e2 =>
        rw [h2] at h
        simp only [] at h
        cases h
        exact readBit_error_eof h2
      | ok r2 =>
        obtain ⟨b2, c2⟩ := r2
        cases b2 with
        | true =>
          rw [h2] at h
          simp only [] at h
          cases h3 : readByte buf c2 with
          | error e3 =>
            rw [h3] at h
            simp only [] at h
            cases h
            exact readByte_error_eof h3
          | ok r3 =>
            obtain ⟨lo, c3⟩ := r3
            rw [h3] at h
            simp only [] at h
            cases h4 : readByte buf c3 with
            | error e4 =>
              rw [h4] at h
              simp only [] at h
              cases h
              exact readByte_error_eof h4
            | ok r4 =>
              obtain ⟨hi, c4⟩ := r4
              rw [h4] at h
              simp only [] at h
              by_cases h5 : lo + 256 * hi = 0
              · rw [if_pos h5] at h
                cases h
              · rw [if_neg h5] at h
                by_cases h6 : ((i16OfRaw (lo + 256 * hi)) % 8).toNat = 0
                · rw [if_pos h6] at h
                  cases h7 : readByte buf c4 with
                  | error e5 =>
                    rw [h7] at h
                    simp only [] at h
                    cases h
                    exact readByte_error_eof h7
                  | ok r5 =>
                    obtain ⟨ext, c5⟩ := r5
                    rw [h7] at h
                    simp only [] at h
                    cases h
                · rw [if_neg h6] at h
                  cases h
        | false =>
          rw [h2] at h
          simp only [] at h
          cases h3 : readBit buf c2 with
          | error e3 =>
            rw [h3] at h
            simp only [] at h
            cases h
            exact readBit_error_eof h3
          | ok r3 =>
            obtain ⟨b3, c3⟩ := r3
            rw [h3] at h
            simp only [] at h
            cases h4 : readBit buf c3 with
            | error e4 =>
              rw [h4] at h
              simp only [] at h
              cases h
              exact readBit_error_eof h4
            | ok r4 =>
              obtain ⟨b4, c4⟩ := r4
              rw [h4] at h
              simp only [] at h
              cases h5 : readByte buf c4 with
              | error e5 =>
                rw [h5] at h
                simp only [] at h
                cases h
                exact readByte_error_eof h5
              | ok r5 =>
                obtain ⟨b5, c5⟩ := r5
                rw [h5] at h
                simp only [] at h
                cases h

theorem decodeLoop_invalidPointer {buf : List Nat} {V : Flavor} :
    ∀ {fuel : Nat} {c : Ctx} {w : List Nat} {d l cl : Nat},
    decodeLoop buf V fuel c w = some (.error (.invalidPointer d l cl)) →
    d = 0 ∨ cl < d
  | 0, c, w, d, l, cl, h => by
    unfold decodeLoop at h
    cases h
  | fuel + 1, c, w, d, l, cl, h => by
    unfold decodeLoop at h
    split at h
    · rename_i e heq
      cases h
      cases nextCmd_error_eof heq
    · cases h
    · exact decodeLoop_invalidPointer h
    · split at h
      · rename_i heq2
        cases h
        obtain ⟨he, hbad⟩ := copyLoop_error_spec heq2
        cases he
        exact hbad
      · exact decodeLoop_invalidPointer h

theorem decompressBuf_invalidPointer {V : Flavor} {buf : List Nat} {d l cl : Nat}
    (h : decompressBuf V buf = .error (.invalidPointer d l cl)) :
    d = 0 ∨ cl < d := by
  unfold decompressBuf at h
  split_ifs at h
  split at h
  · rename_i r heq
    cases h
    exact decodeLoop_invalidPointer heq
  · cases h

/-! ## The decoder ignores bytes after the EOF sentinel -/

theorem readBit_append {buf t : List Nat} {c : Ctx} {r : Bool × Ctx}
    (h : readBit buf c = .ok r) : readBit (buf ++ t) c = .ok r := by
  unfold readBit at h ⊢
  by_cases h0 : c.rem = 0
  · rw [if_pos h0] at h ⊢
    by_cases hp : c.pos < buf.length
    · rw [if_pos hp] at h
      rw [if_pos (by simp; omega)]
      rw [getD_append_left hp]
      exact h
    · rw [if_neg hp] at h
      cases h
  · rw [if_neg h0] at h ⊢
    exact h

theorem readByte_append {buf t : List Nat} {c : Ctx} {r : Nat × Ctx}
    (h : readByte buf c = .ok r) : readByte (buf ++ t) c = .ok r := by
  unfold readByte at h ⊢
  by_cases hp : c.pos < buf.length
  · rw [if_pos hp] at h
    rw [if_pos (by simp; omega)]
    rw [getD_append_left hp]
    exact h
  · rw [if_neg hp] at h
    cases h

theorem nextCmd_append {buf t : List Nat} {V : Flavor} {c : Ctx} {r : Ctx × Option Cmd}
    (h : nextCmd buf V c = .ok r) : nextCmd (buf ++ t) V c = .ok r := by
  unfold nextCmd at h ⊢
  cases h1 : readBit buf c with
  | error e1 =>
    rw [h1] at h
    simp only [] at h
    cases h
  | ok r1 =>
    obtain ⟨b1, c1⟩ := r1
    rw [readBit_append h1]
    cases b1 with
    | true =>
      rw [h1] at h
      simp only [] at h ⊢
      cases h2 : readByte buf c1 with
      | error e2 =>
        rw [h2] at h
        simp only [] at h
        cases h
      | ok r2 =>
        obtain ⟨b2, c2⟩ := r2
        rw [h2] at h
        rw [readByte_append h2]
        simp only [] at h ⊢
        exact h
    | false =>
      rw [h1] at h
      simp only [] at h ⊢
      cases h2 : readBit buf c1 with
      | error e2 =>
        rw [h2] at h
        simp only [] at h
        cases h
      | ok r2 =>
        obtain ⟨b2, c2⟩ := r2
        rw [readBit_append h2]
        cases b2 with
        | true =>
          rw [h2] at h
          simp only [] at h ⊢
          cases h3 : readByte buf c2 with
          | error e3 =>
            rw [h3] at h
            simp only [] at h
            cases h
          | ok r3 =>
            obtain ⟨lo, c3⟩ := r3
            rw [h3] at h
            rw [readByte_append h3]
            simp only [] at h ⊢
            cases h4 : readByte buf c3 with
            | error e4 =>
              rw [h4] at h
              simp only [] at h
              cases h
            | ok r4 =>
              obtain ⟨hi, c4⟩ := r4
              rw [h4] at h
              rw [readByte_append h4]
              simp only [] at h ⊢
              by_cases h5 : lo + 256 * hi = 0
              · rw [if_pos h5] at h ⊢
                exact h
              · rw [if_neg h5] at h ⊢
                by_cases h6 : ((i16OfRaw (lo + 256 * hi)) % 8).toNat = 0
                · rw [if_pos h6] at h ⊢
                  cases h7 : readByte buf c4 with
                  | error e5 =>
                    rw [h7] at h
                    simp only [] at h
                    cases h
                  | ok r5 =>
                    obtain ⟨ext, c5⟩ := r5
                    rw [h7] at h
                    rw [readByte_append h7]
                    simp only [] at h ⊢
                    exact h
                · rw [if_neg h6] at h ⊢
                  exact h
        | false =>
          rw [h2] at h
          simp only [] at h ⊢
          cases h3 : readBit buf c2 with
          | error e3 =>
            rw [h3] at h
            simp only [] at h
            cases h
          | ok r3 =>
            obtain ⟨b3, c3⟩ := r3
            rw [h3] at h
            rw [readBit_append h3]
            simp only [] at h ⊢
            cases h4 : readBit buf c3 with
            | error e4 =>
              rw [h4] at h
              simp only [] at h
              cases h
            | ok r4 =>
              obtain ⟨b4, c4⟩ := r4
              rw [h4] at h
              rw [readBit_append h4]
              simp only [] at h ⊢
              cases h5 : readByte buf c4 with
              | error e5 =>
                rw [h5] at h
                simp only [] at h
                cases h
              | ok r5 =>
                obtain ⟨b5, c5⟩ := r5
                rw [h5] at h
                rw [readByte_append h5]
                simp only [] at h ⊢
                exact h

theorem decodeLoop_append {buf t : List Nat} {V : Flavor} :
    ∀ {fuel : Nat} {c : Ctx} {w out : List Nat},
    decodeLoop buf V fuel c w = some (.ok out) →
    decodeLoop (buf ++ t) V fuel c w = some (.ok out)
  | 0, c, w, out, h => by
    unfold decodeLoop at h
    cases h
  | fuel + 1, c, w, out, h => by
    unfold decodeLoop at h ⊢
    cases h1 : nextCmd buf V c with
    | error e =>
      rw [h1] at h
      simp only [] at h
      simp at h
    | ok r =>
      obtain ⟨c', cmd⟩ := r
      rw [h1] at h
      rw [nextCmd_append h1]
      cases cmd with
      | none =>
        simp only [] at h ⊢
        exact h
      | some cmd0 =>
        cases cmd0 with
        | literal b =>
          simp only [] at h ⊢
          exact decodeLoop_append h
        | pointer dist len =>
          simp only [] at h ⊢
          cases h2 : copyLoop dist len len w with
          | error e =>
            rw [h2] at h
            simp only [] at h
            simp at h
          | ok w' =>
            rw [h2] at h
            simp only [] at h ⊢
            exact decodeLoop_append h

theorem decodeLoop_mono {buf : List Nat} {V : Flavor} :
    ∀ {fuel fuel' : Nat} {c : Ctx} {w : List Nat} {r},
    decodeLoop buf V fuel c w = some r → fuel ≤ fuel' →
    decodeLoop buf V fuel' c w = some r
  | 0, _, c, w, r, h, _ => by
    unfold decodeLoop at h
    cases h
  | fuel + 1, fuel', c, w, r, h, hle => by
    obtain ⟨f2, rfl⟩ : ∃ f2, fuel' = f2 + 1 := ⟨fuel' - 1, by omega⟩
    unfold decodeLoop at h ⊢
    cases h1 : nextCmd buf V c with
    | error e =>
      rw [h1] at h
      simp only [] at h ⊢
      exact h
    | ok r1 =>
      obtain ⟨c', cmd⟩ := r1
      rw [h1] at h
      cases cmd with
      | none =>
        simp only [] at h ⊢
        exact h
      | some cmd0 =>
        cases cmd0 with
        | literal b =>
          simp only [] at h ⊢
          exact decodeLoop_mono h (by omega)
        | pointer dist len =>
          simp only [] at h ⊢
          cases h2 : copyLoop dist len len w with
          | error e =>
            rw [h2] at h
            simp only [] at h ⊢
            exact h
          | ok w' =>
            rw [h2] at h
            simp only [] at h ⊢
            exact decodeLoop_mono h (by omega)

theorem decompressBuf_append {V : Flavor} {buf t out : List Nat}
    (hne : buf ≠ []) (h : decompressBuf V buf = .ok out) :
    decompressBuf V (buf ++ t) = .ok out := by
  unfold decompressBuf at h ⊢
  rw [if_neg (by simp [hne])] at h
  rw [if_neg (by simp [hne])]
  have hloop : decodeLoop buf V (buf.length + 1) ⟨0, 0, 0⟩ [] = some (.ok out) := by
    cases h1 : decodeLoop buf V (buf.length + 1) ⟨0, 0, 0⟩ [] with
    | none => rw [h1] at h; cases h
    | some r =>
      rw [h1] at h
      cases h
      rfl
  have hext := decodeLoop_append (t := t) hloop
  have hmono := decodeLoop_mono hext (show buf.length + 1 ≤ (buf ++ t).length + 1 by simp)
  rw [hmono]

/-! ## Streaming flushes deliver the same bytes as one-shot encoding

`flush_buf` moves the settled prefix `out[0 .. cmd_index]` to the
downstream writer.  Relative to the virtual, never-flushed sink, a flushed
encoder state is a `drain` image; `consume`, `finish` and `flush_buf` all
commute with draining, so the delivered byte stream equals the one-shot
sink output. -/

/-- Remove an already-delivered prefix of `d` bytes from a sink state. -/
def drain (d : Nat) (s : PrsSink) : PrsSink :=
  ⟨s.cmdIndex - d, s.cmdBitsRem, s.out.drop d⟩

theorem getD_drop' (l : List Nat) (n i : Nat) : (l.drop n).getD i 0 = l.getD (n + i) 0 := by
  simp [List.getElem?_drop]

theorem writeBit_eq_pos' (s : PrsSink) (b : Bool) (h : 0 < s.cmdBitsRem) :
    s.writeBit b = ⟨s.cmdIndex, s.cmdBitsRem - 1,
      if b then s.out.set s.cmdIndex (s.out.getD s.cmdIndex 0 ||| 1 <<< (8 - s.cmdBitsRem))
      else s.out⟩ := by
  unfold PrsSink.writeBit
  rw [if_neg (by omega)]
  cases b <;> simp

theorem writeBit_drain {d : Nat} {s : PrsSink} (b : Bool) (hd : d ≤ s.cmdIndex)
    (hlen : s.cmdIndex ≤ s.out.length) :
    (drain d s).writeBit b = drain d (s.writeBit b) := by
  by_cases h0 : s.cmdBitsRem = 0
  · rw [writeBit_eq_zero (drain d s) b h0, writeBit_eq_zero s b h0]
    unfold drain
    simp [List.drop_append_of_le_length (show d ≤ s.out.length by omega)]
  · have h0' : 0 < s.cmdBitsRem := by omega
    rw [writeBit_eq_pos' (drain d s) b h0', writeBit_eq_pos' s b h0']
    unfold drain
    have hg : (s.out.drop d).getD (s.cmdIndex - d) 0 = s.out.getD s.cmdIndex 0 := by
      rw [getD_drop']
      congr 1
      omega
    cases b <;>
      simp [hg, List.drop_set, show ¬ s.cmdIndex < d from by omega, Nat.add_sub_cancel' hd]

theorem push_drain {d : Nat} {s : PrsSink} (v : Nat) (hd : d ≤ s.out.length) :
    (drain d s).push v = drain d (s.push v) := by
  unfold drain PrsSink.push
  simp [List.drop_append_of_le_length hd]

theorem writeBit_bounds {d : Nat} {s : PrsSink} (b : Bool) (hd : d ≤ s.cmdIndex)
    (hlen : s.cmdIndex ≤ s.out.length) :
    d ≤ (s.writeBit b).cmdIndex ∧ (s.writeBit b).cmdIndex ≤ (s.writeBit b).out.length := by
  by_cases h0 : s.cmdBitsRem = 0
  · rw [writeBit_eq_zero s b h0]
    constructor
    · dsimp only
      omega
    · dsimp only
      simp
  · rw [writeBit_eq_pos' s b (by omega)]
    constructor
    · exact hd
    · cases b <;> (simp; omega)

theorem push_bounds {d : Nat} {s : PrsSink} (v : Nat) (hd : d ≤ s.cmdIndex)
    (hlen : s.cmdIndex ≤ s.out.length) :
    d ≤ (s.push v).cmdIndex ∧ (s.push v).cmdIndex ≤ (s.push v).out.length := by
  constructor <;> simp [PrsSink.push] <;> omega

theorem consume_drain {V : Flavor} {d : Nat} {s : PrsSink} (code : Code)
    (hd : d ≤ s.cmdIndex) (hlen : s.cmdIndex ≤ s.out.length) :
    PrsSink.consume V (drain d s) code = (PrsSink.consume V s code).map (drain d) := by
  cases code with
  | literal b =>
    rw [consume_literal, consume_literal]
    dsimp only [Option.map]
    rw [writeBit_drain true hd hlen]
    obtain ⟨hb1, hb2⟩ := writeBit_bounds true hd hlen
    have hp : d ≤ (s.writeBit true).out.length := by omega
    rw [push_drain (b % 256) hp]
  | pointer len dist =>
    by_cases h2 : len < 2
    · rw [consume_ptr_none V _ (Or.inl h2), consume_ptr_none V _ (Or.inl h2)]
      rfl
    by_cases hmax : V.maxCopyLength < len
    · rw [consume_ptr_none V _ (Or.inr (Or.inl hmax)), consume_ptr_none V _ (Or.inr (Or.inl hmax))]
      rfl
    by_cases hdist : 8192 ≤ dist
    · rw [consume_ptr_none V _ (Or.inr (Or.inr hdist)), consume_ptr_none V _ (Or.inr (Or.inr hdist))]
      rfl
    by_cases hlong : 256 ≤ dist ∨ 5 < len
    · obtain ⟨ha1, ha2⟩ := writeBit_bounds false hd hlen
      obtain ⟨hb1, hb2⟩ := writeBit_bounds true ha1 ha2
      by_cases hlt : len - 2 < 8
      · rw [consume_long_noext V _ h2 hmax hdist hlong hlt,
          consume_long_noext V _ h2 hmax hdist hlong hlt]
        dsimp only [Option.map]
        rw [writeBit_drain false hd hlen, writeBit_drain true ha1 ha2]
        have hp1 : d ≤ ((s.writeBit false).writeBit true).out.length := by omega
        rw [push_drain (((-(dist : Int) * 8 + ((len - 2 : Nat) : Int)) % 65536).toNat % 256) hp1]
        obtain ⟨hc1, hc2⟩ := push_bounds
          (((-(dist : Int) * 8 + ((len - 2 : Nat) : Int)) % 65536).toNat % 256) hb1 hb2
        have hp2 : d ≤ (((s.writeBit false).writeBit true).push
            (((-(dist : Int) * 8 + ((len - 2 : Nat) : Int)) % 65536).toNat % 256)).out.length := by
          omega
        rw [push_drain (((-(dist : Int) * 8 + ((len - 2 : Nat) : Int)) % 65536).toNat / 256) hp2]
      · rw [consume_long_ext V _ h2 hmax hdist hlong (by omega),
          consume_long_ext V _ h2 hmax hdist hlong (by omega)]
        dsimp only [Option.map]
        rw [writeBit_drain false hd hlen, writeBit_drain true ha1 ha2]
        have hp1 : d ≤ ((s.writeBit false).writeBit true).out.length := by omega
        rw [push_drain ((((-(dist : Int) * 8) % 65536).toNat) % 256) hp1]
        obtain ⟨hc1, hc2⟩ := push_bounds ((((-(dist : Int) * 8) % 65536).toNat) % 256) hb1 hb2
        have hp2 : d ≤ (((s.writeBit false).writeBit true).push
            ((((-(dist : Int) * 8) % 65536).toNat) % 256)).out.length := by omega
        rw [push_drain ((((-(dist : Int) * 8) % 65536).toNat) / 256) hp2]
        obtain ⟨he1, he2⟩ := push_bounds ((((-(dist : Int) * 8) % 65536).toNat) / 256) hc1 hc2
        have hp3 : d ≤ ((((s.writeBit false).writeBit true).push
            ((((-(dist : Int) * 8) % 65536).toNat) % 256)).push
            ((((-(dist : Int) * 8) % 65536).toNat) / 256)).out.length := by omega
        rw [push_drain ((len - V.minLongCopyLength) % 256) hp3]
    · rw [consume_short V _ h2 hmax hdist hlong, consume_short V _ h2 hmax hdist hlong]
      dsimp only [Option.map]
      obtain ⟨ha1, ha2⟩ := writeBit_bounds false hd hlen
      obtain ⟨hb1, hb2⟩ := writeBit_bounds false ha1 ha2
      obtain ⟨hc1, hc2⟩ := writeBit_bounds ((((len - 2) &&& 2) ≠ 0 : Prop)) hb1 hb2
      obtain ⟨he1, he2⟩ := writeBit_bounds ((((len - 2) &&& 1) ≠ 0 : Prop)) hc1 hc2
      rw [writeBit_drain false hd hlen, writeBit_drain false ha1 ha2,
        writeBit_drain _ hb1 hb2, writeBit_drain _ hc1 hc2]
      have hp : d ≤ ((((s.writeBit false).writeBit false).writeBit
          ((((len - 2) &&& 2) ≠ 0 : Prop))).writeBit
          ((((len - 2) &&& 1) ≠ 0 : Prop))).out.length := by omega
      rw [push_drain ((-(dist : Int) % 256).toNat) hp]

theorem drain_zero (s : PrsSink) : drain 0 s = s := rfl

theorem take_set_of_le (l : List Nat) (i n v : Nat) (h : n ≤ i) :
    (l.set i v).take n = l.take n := by
  rw [List.set_take]
  exact List.set_eq_of_length_le (by simp; omega)

theorem writeBit_take {t : Nat} {s : PrsSink} (b : Bool) (hd : t ≤ s.cmdIndex)
    (hlen : s.cmdIndex ≤ s.out.length) :
    (s.writeBit b).out.take t = s.out.take t := by
  by_cases h0 : s.cmdBitsRem = 0
  · rw [writeBit_eq_zero s b h0]
    exact List.take_append_of_le_length (by omega)
  · rw [writeBit_eq_pos' s b (by omega)]
    cases b
    · rfl
    · exact take_set_of_le _ _ _ _ hd

theorem push_take {t : Nat} {s : PrsSink} (v : Nat) (ht : t ≤ s.out.length) :
    (s.push v).out.take t = s.out.take t :=
  List.take_append_of_le_length ht

theorem consume_bounds {V : Flavor} {d : Nat} {s s' : PrsSink} {code : Code}
    (h : PrsSink.consume V s code = some s')
    (hd : d ≤ s.cmdIndex) (hlen : s.cmdIndex ≤ s.out.length) :
    d ≤ s'.cmdIndex ∧ s'.cmdIndex ≤ s'.out.length := by
  cases code with
  | literal b =>
    rw [consume_literal] at h
    obtain ⟨hb1, hb2⟩ := writeBit_bounds (d := d) true hd hlen
    obtain ⟨hc1, hc2⟩ := push_bounds (d := d) (b % 256) hb1 hb2
    cases h
    exact ⟨hc1, hc2⟩
  | pointer len dist =>
    by_cases h2 : len < 2
    · rw [consume_ptr_none V _ (Or.inl h2)] at h
      exact absurd h (by simp)
    by_cases hmax : V.maxCopyLength < len
    · rw [consume_ptr_none V _ (Or.inr (Or.inl hmax))] at h
      exact absurd h (by simp)
    by_cases hdist : 8192 ≤ dist
    · rw [consume_ptr_none V _ (Or.inr (Or.inr hdist))] at h
      exact absurd h (by simp)
    by_cases hlong : 256 ≤ dist ∨ 5 < len
    · obtain ⟨ha1, ha2⟩ := writeBit_bounds (d := d) false hd hlen
      obtain ⟨hb1, hb2⟩ := writeBit_bounds (d := d) true ha1 ha2
      by_cases hlt : len - 2 < 8
      · rw [consume_long_noext V _ h2 hmax hdist hlong hlt] at h
        obtain ⟨hc1, hc2⟩ := push_bounds (d := d)
          (((-(dist : Int) * 8 + ((len - 2 : Nat) : Int)) % 65536).toNat % 256) hb1 hb2
        obtain ⟨he1, he2⟩ := push_bounds (d := d)
          (((-(dist : Int) * 8 + ((len - 2 : Nat) : Int)) % 65536).toNat / 256) hc1 hc2
        cases h
        exact ⟨he1, he2⟩
      · rw [consume_long_ext V _ h2 hmax hdist hlong (by omega)] at h
        obtain ⟨hc1, hc2⟩ := push_bounds (d := d)
          ((((-(dist : Int) * 8) % 65536).toNat) % 256) hb1 hb2
        obtain ⟨he1, he2⟩ := push_bounds (d := d)
          ((((-(dist : Int) * 8) % 65536).toNat) / 256) hc1 hc2
        obtain ⟨hf1, hf2⟩ := push_bounds (d := d) ((len - V.minLongCopyLength) % 256) he1 he2
        cases h
        exact ⟨hf1, hf2⟩
    · rw [consume_short V _ h2 hmax hdist hlong] at h
      obtain ⟨ha1, ha2⟩ := writeBit_bounds (d := d) false hd hlen
      obtain ⟨hb1, hb2⟩ := writeBit_bounds (d := d) false ha1 ha2
      obtain ⟨hc1, hc2⟩ := writeBit_bounds (d := d) ((((len - 2) &&& 2) ≠ 0 : Prop)) hb1 hb2
      obtain ⟨he1, he2⟩ := writeBit_bounds (d := d) ((((len - 2) &&& 1) ≠ 0 : Prop)) hc1 hc2
      obtain ⟨hf1, hf2⟩ := push_bounds (d := d) ((-(dist : Int) % 256).toNat) he1 he2
      cases h
      exact ⟨hf1, hf2⟩

theorem consume_take {V : Flavor} {t : Nat} {s s' : PrsSink} {code : Code}
    (h : PrsSink.consume V s code = some s')
    (hd : t ≤ s.cmdIndex) (hlen : s.cmdIndex ≤ s.out.length) :
    s'.out.take t = s.out.take t := by
  cases code with
  | literal b =>
    rw [consume_literal] at h
    obtain ⟨hb1, hb2⟩ := writeBit_bounds (d := t) true hd hlen
    cases h
    rw [push_take _ (by omega), writeBit_take true hd hlen]
  | pointer len dist =>
    by_cases h2 : len < 2
    · rw [consume_ptr_none V _ (Or.inl h2)] at h
      exact absurd h (by simp)
    by_cases hmax : V.maxCopyLength < len
    · rw [consume_ptr_none V _ (Or.inr (Or.inl hmax))] at h
      exact absurd h (by simp)
    by_cases hdist : 8192 ≤ dist
    · rw [consume_ptr_none V _ (Or.inr (Or.inr hdist))] at h
      exact absurd h (by simp)
    by_cases hlong : 256 ≤ dist ∨ 5 < len
    · obtain ⟨ha1, ha2⟩ := writeBit_bounds (d := t) false hd hlen
      obtain ⟨hb1, hb2⟩ := writeBit_bounds (d := t) true ha1 ha2
      by_cases hlt : len - 2 < 8
      · rw [consume_long_noext V _ h2 hmax hdist hlong hlt] at h
        obtain ⟨hc1, hc2⟩ := push_bounds (d := t)
          (((-(dist : Int) * 8 + ((len - 2 : Nat) : Int)) % 65536).toNat % 256) hb1 hb2
        cases h
        rw [push_take _ (by omega), push_take _ (by omega),
          writeBit_take true ha1 ha2, writeBit_take false hd hlen]
      · rw [consume_long_ext V _ h2 hmax hdist hlong (by omega)] at h
        obtain ⟨hc1, hc2⟩ := push_bounds (d := t)
          ((((-(dist : Int) * 8) % 65536).toNat) % 256) hb1 hb2
        obtain ⟨he1, he2⟩ := push_bounds (d := t)
          ((((-(dist : Int) * 8) % 65536).toNat) / 256) hc1 hc2
        cases h
        rw [push_take _ (by omega), push_take _ (by omega), push_take _ (by omega),
          writeBit_take true ha1 ha2, writeBit_take false hd hlen]
    · rw [consume_short V _ h2 hmax hdist hlong] at h
      obtain ⟨ha1, ha2⟩ := writeBit_bounds (d := t) false hd hlen
      obtain ⟨hb1, hb2⟩ := writeBit_bounds (d := t) false ha1 ha2
      obtain ⟨hc1, hc2⟩ := writeBit_bounds (d := t) ((((len - 2) &&& 2) ≠ 0 : Prop)) hb1 hb2
      obtain ⟨he1, he2⟩ := writeBit_bounds (d := t) ((((len - 2) &&& 1) ≠ 0 : Prop)) hc1 hc2
      cases h
      rw [push_take _ (by omega), writeBit_take _ hc1 hc2, writeBit_take _ hb1 hb2,
        writeBit_take false ha1 ha2, writeBit_take false hd hlen]

theorem consumeAll_drain {V : Flavor} {d : Nat} : ∀ {ts : List Code} {s : PrsSink},
    d ≤ s.cmdIndex → s.cmdIndex ≤ s.out.length →
    consumeAll V (drain d s) ts = (consumeAll V s ts).map (drain d) := by
  intro ts
  induction ts with
  | nil => intro s _ _; rfl
  | cons c ts ih =>
    intro s hd hlen
    unfold consumeAll
    rw [consume_drain c hd hlen]
    cases hc : PrsSink.consume V s c with
    | none => rfl
    | some s1 =>
      dsimp only [Option.map]
      obtain ⟨h1, h2⟩ := consume_bounds hc hd hlen
      exact ih h1 h2

theorem consumeAll_bounds {V : Flavor} {d : Nat} : ∀ {ts : List Code} {s s' : PrsSink},
    consumeAll V s ts = some s' →
    d ≤ s.cmdIndex → s.cmdIndex ≤ s.out.length →
    d ≤ s'.cmdIndex ∧ s'.cmdIndex ≤ s'.out.length := by
  intro ts
  induction ts with
  | nil =>
    intro s s' h hd hlen
    cases h
    exact ⟨hd, hlen⟩
  | cons c ts ih =>
    intro s s' h hd hlen
    unfold consumeAll at h
    cases hc : PrsSink.consume V s c with
    | none => rw [hc] at h; exact absurd h (by simp)
    | some s1 =>
      rw [hc] at h
      obtain ⟨h1, h2⟩ := consume_bounds hc hd hlen
      exact ih h h1 h2

theorem consumeAll_take {V : Flavor} {t : Nat} : ∀ {ts : List Code} {s s' : PrsSink},
    consumeAll V s ts = some s' →
    t ≤ s.cmdIndex → s.cmdIndex ≤ s.out.length →
    s'.out.take t = s.out.take t := by
  intro ts
  induction ts with
  | nil =>
    intro s s' h _ _
    cases h
    rfl
  | cons c ts ih =>
    intro s s' h hd hlen
    unfold consumeAll at h
    cases hc : PrsSink.consume V s c with
    | none => rw [hc] at h; exact absurd h (by simp)
    | some s1 =>
      rw [hc] at h
      obtain ⟨h1, h2⟩ := consume_bounds hc hd hlen
      rw [ih h h1 h2, consume_take hc hd hlen]

theorem finish_drain {d : Nat} {s : PrsSink} (hd : d ≤ s.cmdIndex)
    (hlen : s.cmdIndex ≤ s.out.length) :
    PrsSink.finish (drain d s) = (PrsSink.finish s).drop d := by
  unfold PrsSink.finish
  obtain ⟨ha1, ha2⟩ := writeBit_bounds (d := d) false hd hlen
  obtain ⟨hb1, hb2⟩ := writeBit_bounds (d := d) true ha1 ha2
  obtain ⟨hc1, hc2⟩ := push_bounds (d := d) 0 hb1 hb2
  rw [writeBit_drain false hd hlen, writeBit_drain true ha1 ha2]
  have hp1 : d ≤ ((s.writeBit false).writeBit true).out.length := by omega
  rw [push_drain 0 hp1]
  have hp2 : d ≤ (((s.writeBit false).writeBit true).push 0).out.length := by omega
  rw [push_drain 0 hp2]
  rfl

theorem finish_take {t : Nat} {s : PrsSink} (hd : t ≤ s.cmdIndex)
    (hlen : s.cmdIndex ≤ s.out.length) :
    (PrsSink.finish s).take t = s.out.take t := by
  unfold PrsSink.finish
  obtain ⟨ha1, ha2⟩ := writeBit_bounds (d := t) false hd hlen
  obtain ⟨hb1, hb2⟩ := writeBit_bounds (d := t) true ha1 ha2
  obtain ⟨hc1, hc2⟩ := push_bounds (d := t) 0 hb1 hb2
  rw [push_take 0 (by omega), push_take 0 (by omega),
    writeBit_take true ha1 ha2, writeBit_take false hd hlen]

/-- The streaming encoder refines the one-shot sink: its sink is the
one-shot sink with the first `D` delivered bytes drained. -/
def Rel (e : EncSt) (s : PrsSink) : Prop :=
  ∃ D, D ≤ s.cmdIndex ∧ s.cmdIndex ≤ s.out.length ∧
    e.written = s.out.take D ∧ e.sink = drain D s

theorem rel_init : Rel EncSt.init PrsSink.init :=
  ⟨0, Nat.le_refl 0, Nat.le_refl 0, rfl, rfl⟩

theorem rel_flushBuf {e : EncSt} {s : PrsSink} (h : Rel e s) : Rel (flushBuf e) s := by
  obtain ⟨D, hD, hlen, hw, hs⟩ := h
  unfold flushBuf
  rw [hs]
  by_cases h0 : (drain D s).cmdIndex = 0
  · rw [if_pos h0]
    exact ⟨D, hD, hlen, hw, hs⟩
  · rw [if_neg h0]
    refine ⟨s.cmdIndex, Nat.le_refl _, hlen, ?_, ?_⟩
    · show e.written ++ (drain D s).out.take (drain D s).cmdIndex = s.out.take s.cmdIndex
      unfold drain
      rw [hw]
      have hci : s.cmdIndex = D + (s.cmdIndex - D) := by omega
      conv_rhs => rw [hci]
      rw [List.take_add]
    · show (⟨0, (drain D s).cmdBitsRem, (drain D s).out.drop (drain D s).cmdIndex⟩ : PrsSink)
        = drain s.cmdIndex s
      unfold drain
      rw [List.drop_drop]
      have h1 : D + (s.cmdIndex - D) = s.cmdIndex := by omega
      rw [h1, Nat.sub_self]

theorem rel_consumeAll {V : Flavor} {e : EncSt} {s : PrsSink} (ts : List Code)
    (h : Rel e s) :
    (consumeAll V s ts = none → consumeAll V e.sink ts = none) ∧
    (∀ s', consumeAll V s ts = some s' →
      ∃ sk, consumeAll V e.sink ts = some sk ∧ Rel ⟨sk, e.written⟩ s') := by
  obtain ⟨D, hD, hlen, hw, hs⟩ := h
  rw [hs, consumeAll_drain hD hlen]
  constructor
  · intro hc
    rw [hc]
    rfl
  · intro s' hc
    rw [hc]
    refine ⟨drain D s', rfl, D, ?_, ?_, ?_, rfl⟩
    · exact (consumeAll_bounds hc hD hlen).1
    · exact (consumeAll_bounds hc hD hlen).2
    · show e.written = s'.out.take D
      rw [hw, consumeAll_take hc hD hlen]

theorem rel_encWrite {V : Flavor} {e : EncSt} {s : PrsSink} (ts : List Code) (h : Rel e s) :
    (consumeAll V s ts = none → encWrite V e ts = none) ∧
    (∀ s', consumeAll V s ts = some s' →
      ∃ e', encWrite V e ts = some e' ∧ Rel e' s') := by
  obtain ⟨h1, h2⟩ := rel_consumeAll (V := V) ts h
  unfold encWrite
  constructor
  · intro hc
    rw [h1 hc]
    rfl
  · intro s' hc
    obtain ⟨sk, hsk, hrel⟩ := h2 s' hc
    rw [hsk]
    exact ⟨_, rfl, rel_flushBuf hrel⟩

/-- Concatenation of the per-`write` chunks of tokens. -/
def listJoin : List (List Code) → List Code
  | [] => []
  | c :: cs => c ++ listJoin cs

theorem consumeAll_cons (V : Flavor) (s : PrsSink) (c : Code) (ts : List Code) :
    consumeAll V s (c :: ts) =
      match PrsSink.consume V s c with
      | none => none
      | some s1 => consumeAll V s1 ts := rfl

theorem consumeAll_append {V : Flavor} : ∀ {a b : List Code} {s : PrsSink},
    consumeAll V s (a ++ b) = (consumeAll V s a).bind (fun s1 => consumeAll V s1 b) := by
  intro a
  induction a with
  | nil => intro b s; rfl
  | cons c a ih =>
    intro b s
    rw [List.cons_append, consumeAll_cons, consumeAll_cons]
    cases hc : PrsSink.consume V s c with
    | none => rfl
    | some s1 =>
      dsimp only
      exact ih

theorem rel_encWrites {V : Flavor} : ∀ (chunks : List (List Code)) {e : EncSt} {s : PrsSink},
    Rel e s →
    (consumeAll V s (listJoin chunks) = none → encWrites V e chunks = none) ∧
    (∀ s', consumeAll V s (listJoin chunks) = some s' →
      ∃ e', encWrites V e chunks = some e' ∧ Rel e' s') := by
  intro chunks
  induction chunks with
  | nil =>
    intro e s h
    constructor
    · intro hc
      exact absurd hc (by simp [listJoin, consumeAll])
    · intro s' hc
      rw [show consumeAll V s (listJoin []) = some s from rfl] at hc
      cases hc
      exact ⟨e, rfl, h⟩
  | cons ts rest ih =>
    intro e s h
    obtain ⟨h1, h2⟩ := rel_encWrite (V := V) ts h
    have hj : listJoin (ts :: rest) = ts ++ listJoin rest := rfl
    rw [hj, consumeAll_append]
    cases hc : consumeAll V s ts with
    | none =>
      refine ⟨fun _ => ?_, fun s' hc' => absurd hc' (by simp)⟩
      unfold encWrites
      rw [h1 hc]
    | some s1 =>
      obtain ⟨e1, he1, hrel1⟩ := h2 s1 hc
      obtain ⟨ih1, ih2⟩ := ih hrel1
      rw [Option.some_bind]
      constructor
      · intro hc'
        unfold encWrites
        rw [he1]
        exact ih1 hc'
      · intro s' hc'
        obtain ⟨e', he', hrel'⟩ := ih2 s' hc'
        refine ⟨e', ?_, hrel'⟩
        unfold encWrites
        rw [he1]
        exact he'

/-- The streaming encoder run equals one-shot compression of the
concatenated token stream: chunk boundaries are invisible in the output. -/
theorem encRun_eq (V : Flavor) (chunks : List (List Code)) (fin : List Code) :
    encRun V chunks fin = compressTokens V (listJoin chunks ++ fin) := by
  obtain ⟨hnone, hsome⟩ := rel_encWrites (V := V) chunks rel_init
  unfold encRun compressTokens
  rw [consumeAll_append]
  cases hc : consumeAll V .init (listJoin chunks) with
  | none =>
    rw [hnone hc]
    rfl
  | some s2 =>
    obtain ⟨e2, he2, hrel2⟩ := hsome s2 hc
    rw [he2, Option.some_bind]
    have hrel3 := rel_flushBuf hrel2
    obtain ⟨D, hD, hlen, hw, hs⟩ := hrel3
    show encFinish V e2 fin = _
    unfold encFinish
    dsimp only
    rw [hs, consumeAll_drain hD hlen]
    cases hf : consumeAll V s2 fin with
    | none => rfl
    | some s3 =>
      dsimp only [Option.map]
      congr 1
      obtain ⟨hb1, hb2⟩ := consumeAll_bounds hf hD hlen
      rw [finish_drain hb1 hb2, hw, ← consumeAll_take hf hD hlen, ← finish_take hb1 hb2]
      exact List.take_append_drop D _

theorem readBit_pos {buf : List Nat} {c : Ctx} {b : Bool} {c' : Ctx}
    (h : readBit buf c = .ok (b, c')) :
    c.pos ≤ c'.pos ∧ (c.pos ≤ buf.length → c'.pos ≤ buf.length) := by
  unfold readBit at h
  split at h
  · split at h
    · cases h
      exact ⟨by dsimp; omega, fun _ => by dsimp; omega⟩
    · exact absurd h (by simp)
  · cases h
    exact ⟨Nat.le_refl _, fun hh => hh⟩

theorem readByte_pos {buf : List Nat} {c : Ctx} {v : Nat} {c' : Ctx}
    (h : readByte buf c = .ok (v, c')) :
    c.pos < c'.pos ∧ c'.pos ≤ buf.length := by
  unfold readByte at h
  split at h
  · cases h
    exact ⟨by dsimp; omega, by dsimp; omega⟩
  · exact absurd h (by simp)

/-- Every successful non-EOF command reads at least one payload byte, so it
strictly advances the cursor (and never runs past the buffer). -/
theorem nextCmd_progress {buf : List Nat} {V : Flavor} {c c' : Ctx} {cmd : Cmd}
    (h : nextCmd buf V c = .ok (c', some cmd)) (hp : c.pos ≤ buf.length) :
    c.pos < c'.pos ∧ c'.pos ≤ buf.length := by
  unfold nextCmd at h
  cases h1 : readBit buf c with
  | error e1 => rw [h1] at h; simp only [] at h; cases h
  | ok r1 =>
    obtain ⟨b1, c1⟩ := r1
    obtain ⟨hp1, hq1⟩ := readBit_pos h1
    have hl1 : c1.pos ≤ buf.length := hq1 hp
    cases b1 with
    | true =>
      rw [h1] at h
      simp only [] at h
      cases h2 : readByte buf c1 with
      | error e2 => rw [h2] at h; simp only [] at h; cases h
      | ok r2 =>
        obtain ⟨b2, c2⟩ := r2
        obtain ⟨hp2, hq2⟩ := readByte_pos h2
        rw [h2] at h
        simp only [] at h
        cases h
        exact ⟨by omega, by omega⟩
    | false =>
      rw [h1] at h
      simp only [] at h
      cases h2 : readBit buf c1 with
      | error e2 => rw [h2] at h; simp only [] at h; cases h
      | ok r2 =>
        obtain ⟨b2, c2⟩ := r2
        obtain ⟨hp2, hq2⟩ := readBit_pos h2
        have hl2 : c2.pos ≤ buf.length := hq2 hl1
        cases b2 with
        | true =>
          rw [h2] at h
          simp only [] at h
          cases h3 : readByte buf c2 with
          | error e3 => rw [h3] at h; simp only [] at h; cases h
          | ok r3 =>
            obtain ⟨lo, c3⟩ := r3
            obtain ⟨hp3, hq3⟩ := readByte_pos h3
            rw [h3] at h
            simp only [] at h
            cases h4 : readByte buf c3 with
            | error e4 => rw [h4] at h; simp only [] at h; cases h
            | ok r4 =>
              obtain ⟨hi, c4⟩ := r4
              obtain ⟨hp4, hq4⟩ := readByte_pos h4
              rw [h4] at h
              simp only [] at h
              by_cases h5 : lo + 256 * hi = 0
              · rw [if_pos h5] at h
                exact absurd h (by simp)
              · rw [if_neg h5] at h
                by_cases h6 : ((i16OfRaw (lo + 256 * hi)) % 8).toNat = 0
                · rw [if_pos h6] at h
                  cases h7 : readByte buf c4 with
                  | error e5 => rw [h7] at h; simp only [] at h; cases h
                  | ok r5 =>
                    obtain ⟨ext, c5⟩ := r5
                    obtain ⟨hp5, hq5⟩ := readByte_pos h7
                    rw [h7] at h
                    simp only [] at h
                    cases h
                    exact ⟨by omega, by omega⟩
                · rw [if_neg h6] at h
                  cases h
                  exact ⟨by omega, by omega⟩
        | false =>
          rw [h2] at h
          simp only [] at h
          cases h3 : readBit buf c2 with
          | error e3 => rw [h3] at h; simp only [] at h; cases h
          | ok r3 =>
            obtain ⟨b3, c3⟩ := r3
            obtain ⟨hp3, hq3⟩ := readBit_pos h3
            have hl3 : c3.pos ≤ buf.length := hq3 hl2
            rw [h3] at h
            simp only [] at h
            cases h4 : readBit buf c3 with
            | error e4 => rw [h4] at h; simp only [] at h; cases h
            | ok r4 =>
              obtain ⟨b4, c4⟩ := r4
              obtain ⟨hp4, hq4⟩ := readBit_pos h4
              have hl4 : c4.pos ≤ buf.length := hq4 hl3
              rw [h4] at h
              simp only [] at h
              cases h5 : readByte buf c4 with
              | error e5 => rw [h5] at h; simp only [] at h; cases h
              | ok r5 =>
                obtain ⟨b5, c5⟩ := r5
                obtain ⟨hp5, hq5⟩ := readByte_pos h5
                rw [h5] at h
                simp only [] at h
                cases h
                exact ⟨by omega, by omega⟩

/-- Fuel adequacy: `buf.length + 1` units of fuel never run out, because
each loop iteration either terminates or strictly advances the cursor. -/
theorem decodeLoop_isSome {buf : List Nat} {V : Flavor} :
    ∀ (fuel : Nat) (c : Ctx) (out : List Nat),
    c.pos ≤ buf.length → buf.length < c.pos + fuel →
    (decodeLoop buf V fuel c out).isSome := by
  intro fuel
  induction fuel with
  | zero =>
    intro c out hp hf
    exact absurd hf (by omega)
  | succ fuel ih =>
    intro c out hp hf
    unfold decodeLoop
    cases hc : nextCmd buf V c with
    | error e => simp
    | ok r =>
      obtain ⟨c1, cmd⟩ := r
      cases cmd with
      | none => simp
      | some cm =>
        obtain ⟨hlt, hle⟩ := nextCmd_progress hc hp
        cases cm with
        | literal b =>
          dsimp only
          exact ih c1 (out ++ [b]) hle (by omega)
        | pointer dist len =>
          dsimp only
          cases hcp : copyLoop dist len len out with
          | error e => simp
          | ok out1 => exact ih c1 out1 hle (by omega)

/-! ## The claims -/

/-- Decoder side of the extended-length byte, general in `ext`: with the
command bits `0,1` pending (cursor `⟨0, 2, 2⟩`) and 16-bit LE payload
`8, 0` (raw value 8, size bits zero), the following byte `ext` decodes to
a pointer of length `ext + MIN_LONG_COPY_LENGTH`. -/
theorem nextCmd_ext_byte (V : Flavor) (ext : Nat) (hext : ext < 256) :
    nextCmd [8, 0, ext] V ⟨0, 2, 2⟩ =
      .ok (⟨3, 0, 0⟩, some (.pointer 8191 (ext + V.minLongCopyLength))) := by
  have h1 : readBit [8, 0, ext] ⟨0, 2, 2⟩ = .ok (false, ⟨0, 1, 1⟩) := rfl
  have h2 : readBit [8, 0, ext] ⟨0, 1, 1⟩ = .ok (true, ⟨0, 0, 0⟩) := rfl
  have h3 : readByte [8, 0, ext] ⟨0, 0, 0⟩ = .ok (8, ⟨1, 0, 0⟩) := rfl
  have h4 : readByte [8, 0, ext] ⟨1, 0, 0⟩ = .ok (0, ⟨2, 0, 0⟩) := rfl
  have h5 : readByte [8, 0, ext] ⟨2, 0, 0⟩ = .ok (ext % 256, ⟨3, 0, 0⟩) := by
    unfold readByte
    rw [if_pos (by simp)]
    simp [List.getD]
  unfold nextCmd
  rw [h1]
  dsimp only
  rw [h2]
  dsimp only
  rw [h3]
  dsimp only
  rw [h4]
  dsimp only
  rw [if_neg (by norm_num)]
  rw [if_pos (by decide : (((i16OfRaw (8 + 256 * 0)) % 8).toNat = 0))]
  rw [h5]
  dsimp only
  rw [Nat.mod_eq_of_lt hext]
  norm_num [i16OfRaw, orNeg8192]
  decide

set_option maxRecDepth 8192 in
/-- C1 counterexample: the spec's match-finder contract alone does not
give the roundtrip.  The token stream
`[literal 65, pointer 255 1, pointer 2 256]` obeys the spec's contract
(`specValidCodes`) and reconstructs 258 bytes of `65`, but its encoding is
misdecoded: the length-2 pointer at distance 256 is emitted as a long
pointer with zero size bits, so the decoder consumes the following stream
byte as an extended-length byte, desynchronizes, and ends in `Eof` instead
of the original buffer. -/
theorem claim_C1_counterexample :
    specValidCodes Flavor.modern 0 [.literal 65, .pointer 255 1, .pointer 2 256] ∧
    codesOutput [] [.literal 65, .pointer 255 1, .pointer 2 256] = List.replicate 258 65 ∧
    compressTokens Flavor.modern [.literal 65, .pointer 255 1, .pointer 2 256] =
      some [85, 65, 248, 255, 245, 0, 248, 0, 0] ∧
    decompressBuf Flavor.modern [85, 65, 248, 255, 245, 0, 248, 0, 0] = .error .eof ∧
    decompressBuf Flavor.modern [85, 65, 248, 255, 245, 0, 248, 0, 0] ≠
      .ok (codesOutput [] [.literal 65, .pointer 255 1, .pointer 2 256]) :=
  ⟨by decide, by decide, by decide, by decide, by decide⟩

/-- C1 (amended): round trip under the amended contract.  For every
dialect and every token stream satisfying the spec's match-finder contract
strengthened by `256 ≤ dist → 3 ≤ len` (`validCodes`, a property the
DEFLATE-style match-finder guarantees) and reconstructing a buffer `B`,
compression succeeds and one-shot decompression of the compressed bytes
returns exactly `B`. -/
theorem claim_C1_roundtrip (V : Flavor) (ts : List Code) (B : List Nat)
    (hv : validCodes V 0 ts) (hB : codesOutput [] ts = B) :
    ∃ enc, compressTokens V ts = some enc ∧ decompressBuf V enc = .ok B :=
  roundtrip_tokens hv hB

theorem claim_C1_roundtrip_witness :
    (validCodes Flavor.modern 0 [.literal 72, .pointer 4 1] ∧
      codesOutput [] [.literal 72, .pointer 4 1] = [72, 72, 72, 72, 72]) ∧
    ∃ enc, compressTokens Flavor.modern [.literal 72, .pointer 4 1] = some enc ∧
      decompressBuf Flavor.modern enc = .ok [72, 72, 72, 72, 72] :=
  ⟨⟨by decide, by decide⟩,
    claim_C1_roundtrip .modern [.literal 72, .pointer 4 1] [72, 72, 72, 72, 72]
      (by decide) (by decide)⟩

/-- C2 counterexample: compressing the empty buffer does not yield the
empty byte sequence.  The encoder always finalizes with the EOF sentinel,
so the empty token stream compresses to `[0x02, 0x00, 0x00]`. -/
theorem claim_C2_counterexample :
    compressTokens Flavor.modern [] = some [2, 0, 0] ∧
      compressTokens Flavor.modern [] ≠ some [] :=
  ⟨by decide, by decide⟩

/-- C2 (amended): under either dialect the empty buffer compresses to the
non-empty 3-byte EOF sentinel `[0x02, 0x00, 0x00]`, which decompresses
back to the empty buffer; decompressing the empty byte sequence also
yields the empty buffer. -/
theorem claim_C2_empty_roundtrip (V : Flavor) :
    compressTokens V [] = some [2, 0, 0] ∧ ([2, 0, 0] : List Nat) ≠ [] ∧
      decompressBuf V [2, 0, 0] = .ok [] ∧ decompressBuf V [] = .ok [] := by
  cases V
  · exact ⟨by decide, by decide, by decide, by decide⟩
  · exact ⟨by decide, by decide, by decide, by decide⟩

/-- C3: streaming equivalence.  Writing the token chunks of `B1` and `B2`
in two `write` calls and finalizing delivers exactly the bytes of writing
all tokens in one call and finalizing, for each dialect. -/
theorem claim_C3_streaming_equivalence (V : Flavor) (tsA tsB fin : List Code) :
    encRun V [tsA, tsB] fin = encRun V [tsA ++ tsB] fin := by
  rw [encRun_eq, encRun_eq]
  have h : listJoin [tsA, tsB] ++ fin = listJoin [tsA ++ tsB] ++ fin := by
    simp [listJoin]
  rw [h]

/-- C4: the decoder fails with `InvalidPointer` iff a pointer's copy step
has distance 0 or distance exceeding the bytes produced so far (only the
first step can fail); the error is fatal (the copy loop returns it and the
decoder halts with it) and carries the distance, the full length and the
output length at the failing step. -/
theorem claim_C4_invalid_pointer (V : Flavor) (buf w : List Nat) (dist fl n d l cl : Nat)
    (hn : n ≠ 0) :
    (copyLoop dist fl n w = .error (.invalidPointer dist fl w.length) ↔
      (dist = 0 ∨ w.length < dist)) ∧
    (∀ e, copyLoop dist fl n w = .error e →
      e = .invalidPointer dist fl w.length ∧ (dist = 0 ∨ w.length < dist)) ∧
    (decompressBuf V buf = .error (.invalidPointer d l cl) → d = 0 ∨ cl < d) :=
  ⟨⟨fun h => (copyLoop_error_spec h).2, fun h => copyLoop_bad hn h⟩,
    fun _ h => copyLoop_error_spec h, fun h => decompressBuf_invalidPointer h⟩

theorem claim_C4_invalid_pointer_witness :
    (3 : Nat) ≠ 0 ∧
    ((copyLoop 5 3 3 [1, 2] = .error (.invalidPointer 5 3 2) ↔ ((5 : Nat) = 0 ∨ 2 < 5)) ∧
     (∀ e, copyLoop 5 3 3 [1, 2] = .error e →
        e = .invalidPointer 5 3 2 ∧ ((5 : Nat) = 0 ∨ 2 < 5)) ∧
     (decompressBuf Flavor.modern [2, 65, 0, 0] = .error (.invalidPointer 8184 3 0) →
        (8184 : Nat) = 0 ∨ 0 < 8184)) :=
  ⟨by decide, claim_C4_invalid_pointer .modern [2, 65, 0, 0] [1, 2] 5 3 3 8184 3 0 (by decide)⟩

/-- C5 counterexample: the spec's handcrafted stream `[0x02, 0x41, 0x00,
0x00]` does not decode to the empty buffer: its 16-bit LE payload is
`0x0041 ≠ 0`, so it is no EOF sentinel but a long pointer of length 3 and
distance 8184 into an empty output, failing with `InvalidPointer`. -/
theorem claim_C5_counterexample :
    decompressModern [2, 65, 0, 0] = .error (.invalidPointer 8184 3 0) ∧
      decompressModern [2, 65, 0, 0] ≠ .ok [] :=
  ⟨by decide, by decide⟩

/-- C5 (amended): the handcrafted stream `[0x02, 0x00, 0x00]` (command
byte binary `00000010`: bits 0,1 select the long-pointer form; the 16-bit
LE payload is zero, the EOF sentinel) decodes to the empty buffer under
both dialects. -/
theorem claim_C5_eof_sentinel :
    decompressModern [2, 0, 0] = .ok [] ∧ decompressLegacy [2, 0, 0] = .ok [] :=
  ⟨by decide, by decide⟩

/-- C6: for every pointer token the sink accepts (`2 ≤ len`,
`len ≤ MAX_COPY_LENGTH`, `dist < 8192`), the short form is chosen iff
`dist < 256` and `len ≤ 5`: then the sink writes command bits `0,0`, the
two bits of `len - 2` high bit first, and the payload byte
`(-dist) & 0xFF = (256 - dist) % 256`; otherwise it emits the long form,
command bits `0,1` followed by payload bytes. -/
theorem claim_C6_short_form (V : Flavor) (s : PrsSink) (len dist : Nat)
    (h2 : 2 ≤ len) (hmax : len ≤ V.maxCopyLength) (hd : dist < 8192) :
    (dist < 256 ∧ len ≤ 5 →
      PrsSink.consume V s (.pointer len dist) = some
        (((((s.writeBit false).writeBit false).writeBit ((len - 2) / 2 % 2 = 1)).writeBit
            ((len - 2) % 2 = 1)).push ((256 - dist) % 256))) ∧
    (¬ (dist < 256 ∧ len ≤ 5) →
      ∃ payload : List Nat, PrsSink.consume V s (.pointer len dist) =
        some (payload.foldl PrsSink.push ((s.writeBit false).writeBit true))) := by
  constructor
  · rintro ⟨hdist, hlen⟩
    rw [consume_short V s (by omega) (by omega) (by omega) (by omega)]
    have hb2 : (decide (((len - 2) &&& 2) ≠ 0)) = (decide ((len - 2) / 2 % 2 = 1)) := by
      interval_cases len <;> rfl
    have hb1 : (decide (((len - 2) &&& 1) ≠ 0)) = (decide ((len - 2) % 2 = 1)) := by
      interval_cases len <;> rfl
    have hbyte : ((-(dist : Int)) % 256).toNat = (256 - dist) % 256 := by omega
    rw [hb2, hb1, hbyte]
  · intro hns
    have hlong : 256 ≤ dist ∨ 5 < len := by omega
    by_cases hlt : len - 2 < 8
    · refine ⟨[((-(dist : Int) * 8 + ((len - 2 : Nat) : Int)) % 65536).toNat % 256,
        ((-(dist : Int) * 8 + ((len - 2 : Nat) : Int)) % 65536).toNat / 256], ?_⟩
      rw [consume_long_noext V s (by omega) (by omega) (by omega) hlong hlt]
      rfl
    · refine ⟨[(((-(dist : Int) * 8) % 65536).toNat) % 256,
        (((-(dist : Int) * 8) % 65536).toNat) / 256,
        (len - V.minLongCopyLength) % 256], ?_⟩
      rw [consume_long_ext V s (by omega) (by omega) (by omega) hlong (by omega)]
      rfl

theorem claim_C6_short_form_witness :
    ((2 : Nat) ≤ 3 ∧ 3 ≤ Flavor.maxCopyLength .modern ∧ (2 : Nat) < 8192) ∧
    (((2 : Nat) < 256 ∧ (3 : Nat) ≤ 5 →
      PrsSink.consume Flavor.modern PrsSink.init (.pointer 3 2) = some
        (((((PrsSink.init.writeBit false).writeBit false).writeBit ((3 - 2) / 2 % 2 = 1)).writeBit
            ((3 - 2) % 2 = 1)).push ((256 - 2) % 256))) ∧
     (¬ ((2 : Nat) < 256 ∧ (3 : Nat) ≤ 5) →
      ∃ payload : List Nat, PrsSink.consume Flavor.modern PrsSink.init (.pointer 3 2) =
        some (payload.foldl PrsSink.push ((PrsSink.init.writeBit false).writeBit true)))) :=
  ⟨⟨by decide, by decide, by decide⟩,
    claim_C6_short_form .modern PrsSink.init 3 2 (by decide) (by decide) (by decide)⟩

/-- C7: the dialects disagree exactly by `MIN_LONG_COPY_LENGTH` (Legacy 1,
Modern 10; long copies bounded by `MAX_COPY_LENGTH` 256 and 265): the
decoder turns an extended-length byte `ext` into copy length
`ext + MIN_LONG_COPY_LENGTH`, and the encoder writes
`len - MIN_LONG_COPY_LENGTH` as the extended byte of a long pointer whose
`len - 2 ≥ 8`. -/
theorem claim_C7_dialect_ext_byte (V : Flavor) (s : PrsSink) (len dist ext : Nat)
    (hext : ext < 256) (h2 : 2 ≤ len) (hmax : len ≤ V.maxCopyLength)
    (hd : dist < 8192) (hlong : 256 ≤ dist ∨ 5 < len) (hge : 8 ≤ len - 2) :
    (Flavor.minLongCopyLength .legacy = 1 ∧ Flavor.minLongCopyLength .modern = 10 ∧
      Flavor.maxCopyLength .legacy = 256 ∧ Flavor.maxCopyLength .modern = 265) ∧
    nextCmd [8, 0, ext] V ⟨0, 2, 2⟩ =
      .ok (⟨3, 0, 0⟩, some (.pointer 8191 (ext + V.minLongCopyLength))) ∧
    PrsSink.consume V s (.pointer len dist) = some
      (((((s.writeBit false).writeBit true).push
          (((-(dist : Int) * 8) % 65536).toNat % 256)).push
        (((-(dist : Int) * 8) % 65536).toNat / 256)).push
        ((len - V.minLongCopyLength) % 256)) :=
  ⟨⟨rfl, rfl, rfl, rfl⟩, nextCmd_ext_byte V ext hext,
    consume_long_ext V s (by omega) (by omega) (by omega) hlong hge⟩

theorem claim_C7_dialect_ext_byte_witness :
    ((5 : Nat) < 256 ∧ (2 : Nat) ≤ 12 ∧ 12 ≤ Flavor.maxCopyLength .modern ∧
      (1 : Nat) < 8192 ∧ ((256 : Nat) ≤ 1 ∨ 5 < 12) ∧ (8 : Nat) ≤ 12 - 2) ∧
    ((Flavor.minLongCopyLength .legacy = 1 ∧ Flavor.minLongCopyLength .modern = 10 ∧
       Flavor.maxCopyLength .legacy = 256 ∧ Flavor.maxCopyLength .modern = 265) ∧
     nextCmd [8, 0, 5] Flavor.modern ⟨0, 2, 2⟩ =
       .ok (⟨3, 0, 0⟩, some (.pointer 8191 (5 + Flavor.minLongCopyLength .modern))) ∧
     PrsSink.consume Flavor.modern PrsSink.init (.pointer 12 1) = some
       (((((PrsSink.init.writeBit false).writeBit true).push
           (((-(((1 : Nat) : Int)) * 8) % 65536).toNat % 256)).push
         (((-(((1 : Nat) : Int)) * 8) % 65536).toNat / 256)).push
         ((12 - Flavor.minLongCopyLength .modern) % 256))) :=
  ⟨⟨by decide, by decide, by decide, by decide, by decide, by decide⟩,
    claim_C7_dialect_ext_byte .modern PrsSink.init 12 1 5 (by decide) (by decide) (by decide)
      (by decide) (by decide) (by decide)⟩

/-- C8: `consume` of a pointer token panics (`none`) iff the token
violates the contract: `len < 2`, or `len > MAX_COPY_LENGTH`, or
`dist ≥ 8192`; every pointer within the contract is consumed without
panic. -/
theorem claim_C8_consume_panics (V : Flavor) (s : PrsSink) (len dist : Nat) :
    PrsSink.consume V s (.pointer len dist) = none ↔
      (len < 2 ∨ V.maxCopyLength < len ∨ 8192 ≤ dist) := by
  constructor
  · intro h
    by_contra hc
    push_neg at hc
    obtain ⟨h2, hmax, hd⟩ := hc
    by_cases hlong : 256 ≤ dist ∨ 5 < len
    · by_cases hlt : len - 2 < 8
      · rw [consume_long_noext V s (by omega) (by omega) (by omega) hlong hlt] at h
        cases h
      · rw [consume_long_ext V s (by omega) (by omega) (by omega) hlong (by omega)] at h
        cases h
    · rw [consume_short V s (by omega) (by omega) (by omega) hlong] at h
      cases h
  · exact consume_ptr_none V s

/-- C9: the sink invariant is preserved by every successful `consume`:
`cmd_bits_rem ≤ 8`, `cmd_index` within the buffer, the in-flight command
byte (when `cmd_bits_rem > 0`) at a valid index with its not-yet-assigned
high bit positions zero, and all stored values bytes. -/
theorem claim_C9_sink_invariant (V : Flavor) (s s' : PrsSink) (code : Code)
    (hwf : SinkWf s) (hc : PrsSink.consume V s code = some s') : SinkWf s' :=
  sinkWf_consume hwf hc

theorem claim_C9_sink_invariant_witness :
    (SinkWf PrsSink.init ∧
      PrsSink.consume Flavor.modern PrsSink.init (.literal 65) = some ⟨0, 7, [1, 65]⟩) ∧
    SinkWf ⟨0, 7, [1, 65]⟩ :=
  ⟨⟨by decide, by decide⟩,
    claim_C9_sink_invariant .modern PrsSink.init ⟨0, 7, [1, 65]⟩ (.literal 65)
      (by decide) (by decide)⟩

/-- C10: trailing bytes after the EOF sentinel are ignored: a successful
decode of `buf` is unchanged by appending any suffix. -/
theorem claim_C10_trailing_ignored (V : Flavor) (buf t out : List Nat)
    (hne : buf ≠ []) (h : decompressBuf V buf = .ok out) :
    decompressBuf V (buf ++ t) = .ok out :=
  decompressBuf_append hne h

theorem claim_C10_trailing_ignored_witness :
    (([2, 0, 0] : List Nat) ≠ [] ∧ decompressBuf Flavor.modern [2, 0, 0] = .ok []) ∧
    decompressBuf Flavor.modern ([2, 0, 0] ++ [99]) = .ok [] :=
  ⟨⟨by decide, by decide⟩,
    claim_C10_trailing_ignored .modern [2, 0, 0] [99] [] (by decide) (by decide)⟩

end Prs
